import Mathlib

/-!
# Stream-network space-time model: the objective function of `network_spacetime.cpp`

The source is one function template, `objective_function<Type>::operator()`.
The embedding is generic in the numeric type `K` the template is instantiated
at (a field), with the elementary functions the template calls (`exp`, `log`,
`pow`, the constant `M_PI`) bundled in `Elementary K`.  Vectors are functions
on `Fin n`, sparse matrices are `Matrix (Fin N) (Fin N) K` (an entry that was
never inserted reads as `0`), and every `for` loop is a `Fin.foldl` over its
index range that passes the mutated variables along as state.
-/

namespace NetworkSpacetime

/-- The elementary functions of the numeric type `Type` of the template. -/
structure Elementary (K : Type) where
  /-- The function `exp`. -/
  exp : K → K
  /-- The function `log`. -/
  log : K → K
  /-- The function `pow(x, y)`. -/
  pow : K → K → K
  /-- The constant `M_PI`. -/
  pi : K

/-- The `DATA_*` section (lines 11-20).  `N = flow_n.size()`, `E = from_e.size()`,
`S = source_s.size()`; node and edge indices are in range by their type; a cell
of `y_nt` that is `NA` is `none`. -/
structure Data (K : Type) where
  /-- The number of time points. -/
  n_t : Nat
  /-- The number of nodes, `flow_n.size()`. -/
  N : Nat
  /-- The number of edges, `from_e.size()`. -/
  E : Nat
  /-- The number of listed source nodes, `source_s.size()`. -/
  S : Nat
  /-- The observations; rows are nodes, columns are time points. -/
  y_nt : Fin N → Fin n_t → Option K
  /-- The upstream node of each edge. -/
  from_e : Fin E → Fin N
  /-- The downstream node of each edge. -/
  to_e : Fin E → Fin N
  /-- The length of each edge. -/
  dist_e : Fin E → K
  /-- The flow at each node. -/
  flow_n : Fin N → K
  /-- The list of source nodes. -/
  source_s : Fin S → Fin N

/-- The `PARAMETER*` section (lines 23-33). -/
structure Parameters (K : Type) (N n_t : Nat) where
  /-- Log of the spatial decay rate. -/
  logtheta : K
  /-- Log of the observation standard deviation. -/
  logsigma_y : K
  /-- The offset. -/
  alpha : K
  /-- Log of the spatial scale parameter. -/
  logbeta1 : K
  /-- Log of the temporal scale parameter. -/
  logbeta2 : K
  /-- The spatial random effect. -/
  psi_n : Fin N → K
  /-- The space-time random effect, the same shape as `y_nt`. -/
  omega_nt : Fin N → Fin n_t → K

section Builder

variable {K : Type} [Field K]

/-- Line 40: `theta = exp(logtheta)`. -/
def theta (F : Elementary K) {N n_t : Nat} (p : Parameters K N n_t) : K :=
  F.exp p.logtheta

/-- Line 42: `sigma_y = exp(logsigma_y)`. -/
def sigma_y (F : Elementary K) {N n_t : Nat} (p : Parameters K N n_t) : K :=
  F.exp p.logsigma_y

/-- Line 44: `rhoW = 1.0`. -/
def rhoW : K := 1

/-- Line 45: `beta1 = exp(logbeta1)`. -/
def beta1 (F : Elementary K) {N n_t : Nat} (p : Parameters K N n_t) : K :=
  F.exp p.logbeta1

/-- Line 46: `beta2 = exp(logbeta2)`. -/
def beta2 (F : Elementary K) {N n_t : Nat} (p : Parameters K N n_t) : K :=
  F.exp p.logbeta2

/-- Line 57: `weight(e) = flow_n(from_e(e)) / flow_n(to_e(e))`. -/
def weight (d : Data K) (e : Fin d.E) : K :=
  d.flow_n (d.from_e e) / d.flow_n (d.to_e e)

/-- Line 59: `rho(e) = exp(-theta*dist_e(e))`. -/
def rho (F : Elementary K) (th : K) (d : Data K) (e : Fin d.E) : K :=
  F.exp (-th * d.dist_e e)

/-- Line 61: `var(e) = 1 - exp(-2*theta*dist_e(e))`. -/
def var (F : Elementary K) (th : K) (d : Data K) (e : Fin d.E) : K :=
  1 - F.exp (-2 * th * d.dist_e e)

/-- The two variables the edge loop (lines 67-72) mutates. -/
structure EdgeState (K : Type) (N : Nat) where
  /-- The path matrix. -/
  Gamma : Matrix (Fin N) (Fin N) K
  /-- The accumulated variances. -/
  v_n : Fin N → K

/-- Lines 64-66: `Gamma` is the empty sparse matrix, `v_n.fill(0.0)`. -/
def edgeInit (N : Nat) : EdgeState K N :=
  { Gamma := fun _ _ => 0, v_n := fun _ => 0 }

/-- The body of the edge loop for edge `e` (lines 69 and 71): the entry of
`Gamma` at `(to_e(e), from_e(e))` is assigned, `v_n(to_e(e))` is added to. -/
def edgeStep (F : Elementary K) (th : K) (d : Data K) (s : EdgeState K d.N)
    (e : Fin d.E) : EdgeState K d.N :=
  { Gamma := fun i j =>
      if i = d.to_e e ∧ j = d.from_e e then weight d e * rho F th d e else s.Gamma i j
    v_n := fun n =>
      if n = d.to_e e then s.v_n n + weight d e * var F th d e else s.v_n n }

/-- The edge loop, lines 67-72: `for(int e=0; e<E; e++)`. -/
def edgeLoop (F : Elementary K) (th : K) (d : Data K) : EdgeState K d.N :=
  Fin.foldl d.E (edgeStep F th d) (edgeInit d.N)

/-- The path matrix `Gamma` as reported. -/
def Gamma (F : Elementary K) (th : K) (d : Data K) : Matrix (Fin d.N) (Fin d.N) K :=
  (edgeLoop F th d).Gamma

/-- The body of the source loop (line 76): `v_n(source_s(i)) = Type(1)`. -/
def sourceStep (d : Data K) (v : Fin d.N → K) (i : Fin d.S) : Fin d.N → K :=
  fun n => if n = d.source_s i then 1 else v n

/-- The vector `v_n` as reported: the edge loop followed by the source loop
(lines 74-77). -/
def v_n (F : Elementary K) (th : K) (d : Data K) : Fin d.N → K :=
  Fin.foldl d.S (sourceStep d) (edgeLoop F th d).v_n

/-- The body of the loop that fills `V` (line 83):
`V.coeffRef(n,n) = pow(v_n(n), -1)`, with no test on `v_n(n)`. -/
def VStep (F : Elementary K) (th : K) (d : Data K) (M : Matrix (Fin d.N) (Fin d.N) K)
    (n : Fin d.N) : Matrix (Fin d.N) (Fin d.N) K :=
  fun i j => if i = n ∧ j = n then F.pow (v_n F th d n) (-1) else M i j

/-- The matrix `V`, lines 80-84. -/
def V (F : Elementary K) (th : K) (d : Data K) : Matrix (Fin d.N) (Fin d.N) K :=
  Fin.foldl d.N (VStep F th d) (fun _ _ => 0)

/-- Lines 87-88: `I.setIdentity()`. -/
def I (N : Nat) : Matrix (Fin N) (Fin N) K := 1

/-- Line 89: `Q = (I-Gamma).transpose() * V * (I-Gamma)`. -/
def Q (F : Elementary K) (th : K) (d : Data K) : Matrix (Fin d.N) (Fin d.N) K :=
  (I d.N - Gamma F th d).transpose * V F th d * (I d.N - Gamma F th d)

end Builder

section Likelihood

variable {K : Type} [Field K]

/-- Modelled from the spec: `GMRF(Q)` of the TMB `density` namespace, which is
not part of this repository.  `GMRF(Q)(u)` is the negative log-density
`(1/2)*u^T Q u - (1/2)*ln det Q + (N/2)*ln(2*pi)`. -/
def GMRF (F : Elementary K) {N : Nat} (Q : Matrix (Fin N) (Fin N) K) (u : Fin N → K) : K :=
  1 / 2 * Matrix.dotProduct u (Q.mulVec u) - 1 / 2 * F.log Q.det
    + (N : K) / 2 * F.log (2 * F.pi)

/-- Modelled from the spec: `SCALE(f, s)` of the TMB `density` namespace, which
is not part of this repository.  `SCALE(f, s)(x) = f(x/s) + N*ln(s)`. -/
def SCALE (F : Elementary K) {N : Nat} (f : (Fin N → K) → K) (s : K) (x : Fin N → K) : K :=
  f (fun n => x n / s) + (N : K) * F.log s

/-- Modelled from the spec: `dnorm(x, mean, sd, true)` of TMB, which is not
part of this repository: the log-density of the normal distribution with
standard deviation `sd`, `-(ln(sd) + (1/2)*ln(2*pi) + (x-mean)^2/(2*sd^2))`. -/
def dnorm (F : Elementary K) (x mean sd : K) : K :=
  -(F.log sd + 1 / 2 * F.log (2 * F.pi) + (x - mean) ^ 2 / (2 * sd ^ 2))

/-- The right-hand side of line 93, `SCALE(GMRF(Q), 1 / beta1)(psi_n)`, as a
function of the precision matrix, of `beta1` and of `psi_n`. -/
def spatialTerm (F : Elementary K) {N : Nat} (Q : Matrix (Fin N) (Fin N) K) (b1 : K)
    (psi : Fin N → K) : K :=
  SCALE F (GMRF F Q) (1 / b1) psi

/-- The body of the space-time loop for time step `t` (lines 96-100). -/
def temporalStep (F : Elementary K) {N n_t : Nat} (Q : Matrix (Fin N) (Fin N) K) (b2 : K)
    (omega : Fin N → Fin n_t → K) (acc : K) (t : Fin n_t) : K :=
  if t.val = 0 then
    acc + SCALE F (GMRF F Q) (1 / b2 / F.pow 1 0.5) (fun n => omega n t)
  else
    acc + SCALE F (GMRF F Q) (1 / b2)
      (fun n => omega n t - rhoW * omega n ⟨t.val - 1, lt_of_le_of_lt (Nat.sub_le _ _) t.isLt⟩)

/-- The space-time loop, lines 95-101, started from `jnll(1) = 0`, as a
function of the precision matrix, of `beta2` and of `omega_nt`. -/
def temporalTerm (F : Elementary K) {N n_t : Nat} (Q : Matrix (Fin N) (Fin N) K) (b2 : K)
    (omega : Fin N → Fin n_t → K) : K :=
  Fin.foldl n_t (temporalStep F Q b2 omega) 0

/-- The component `jnll(0)` (line 93). -/
def jnll0 (F : Elementary K) (d : Data K) (p : Parameters K d.N d.n_t) : K :=
  spatialTerm F (Q F (theta F p) d) (beta1 F p) p.psi_n

/-- The component `jnll(1)` (lines 95-101). -/
def jnll1 (F : Elementary K) (d : Data K) (p : Parameters K d.N d.n_t) : K :=
  temporalTerm F (Q F (theta F p) d) (beta2 F p) p.omega_nt

/-- Line 111: `z_nt(n, t) = alpha + psi_n(n) + omega_nt(n, t)`. -/
def z_nt {N n_t : Nat} (p : Parameters K N n_t) (n : Fin N) (t : Fin n_t) : K :=
  p.alpha + p.psi_n n + p.omega_nt n t

/-- The body of the inner observation loop (lines 118-120): a cell that is not
`NA` subtracts its `dnorm` from `jnll(2)`, an `NA` cell leaves it as it is. -/
def obsStep (F : Elementary K) (d : Data K) (p : Parameters K d.N d.n_t) (n : Fin d.N)
    (acc : K) (t : Fin d.n_t) : K :=
  match d.y_nt n t with
  | some y => acc - dnorm F y (z_nt p n t) (sigma_y F p)
  | none => acc

/-- The component `jnll(2)`: the two nested observation loops, lines 108-122. -/
def jnll2 (F : Elementary K) (d : Data K) (p : Parameters K d.N d.n_t) : K :=
  Fin.foldl d.N (fun acc n => Fin.foldl d.n_t (obsStep F d p n) acc) 0

/-- The returned objective, line 126: `j = jnll(0) + jnll(1) + jnll(2)`. -/
def objective (F : Elementary K) (d : Data K) (p : Parameters K d.N d.n_t) : K :=
  jnll0 F d p + jnll1 F d p + jnll2 F d p

end Likelihood

section Examples

variable (K : Type) [Field K]

/-- The two-node chain `0 → 1`: one edge of length 1, unit flows, source node 0. -/
abbrev chain2 : Data K :=
  { n_t := 0, N := 2, E := 1, S := 1
    y_nt := fun _ t => t.elim0
    from_e := ![0]
    to_e := ![1]
    dist_e := ![1]
    flow_n := ![1, 1]
    source_s := ![0] }

/-- Two nodes joined by two edges `0 → 1`, of lengths 1 and 0, unit flows,
source node 0. -/
abbrev parallel2 : Data K :=
  { n_t := 0, N := 2, E := 2, S := 1
    y_nt := fun _ t => t.elim0
    from_e := ![0, 0]
    to_e := ![1, 1]
    dist_e := ![1, 0]
    flow_n := ![1, 1]
    source_s := ![0] }

/-- One node with no incoming edge that is not listed as a source. -/
abbrev orphan1 : Data K :=
  { n_t := 0, N := 1, E := 0, S := 0
    y_nt := fun _ t => t.elim0
    from_e := fun e => e.elim0
    to_e := fun e => e.elim0
    dist_e := fun e => e.elim0
    flow_n := ![1]
    source_s := fun s => s.elim0 }

/-- The network of `N` isolated nodes, all of them listed as sources. -/
abbrev isolated (N : Nat) : Data K :=
  { n_t := 0, N := N, E := 0, S := N
    y_nt := fun _ t => t.elim0
    from_e := fun e => e.elim0
    to_e := fun e => e.elim0
    dist_e := fun e => e.elim0
    flow_n := fun _ => 1
    source_s := fun s => s }

/-- The three-node chain `0 → 1 → 2` of the end-to-end scenario: unit flows,
unit distances, source node 0, one time point, no observation. -/
abbrev chain3 : Data K :=
  { n_t := 1, N := 3, E := 2, S := 1
    y_nt := fun _ _ => none
    from_e := ![0, 1]
    to_e := ![1, 2]
    dist_e := ![1, 1]
    flow_n := ![1, 1, 1]
    source_s := ![0] }

/-- The parameter record with every scalar parameter and every random effect
equal to zero. -/
abbrev zeroParameters (N n_t : Nat) : Parameters K N n_t :=
  { logtheta := 0, logsigma_y := 0, alpha := 0, logbeta1 := 0, logbeta2 := 0
    psi_n := fun _ => 0
    omega_nt := fun _ _ => 0 }

end Examples

section Specification

variable {K : Type} [Field K]

/-- The data `d` with the observation matrix replaced by `y`. -/
abbrev withY (d : Data K) (y : Fin d.N → Fin d.n_t → Option K) : Data K :=
  { d with y_nt := y }

/-- The observation matrix `y` with the cell `(n, t)` set to `c`: `some v` stores
the value `v` there, `none` marks the cell as missing. -/
def setCell {N n_t : Nat} (y : Fin N → Fin n_t → Option K) (n : Fin N) (t : Fin n_t)
    (c : Option K) : Fin N → Fin n_t → Option K :=
  fun n2 t2 => if n2 = n ∧ t2 = t then c else y n2 t2

/-- There is an edge from node `a` to node `b`. -/
def edgeRel (d : Data K) (a b : Fin d.N) : Prop :=
  ∃ e : Fin d.E, d.from_e e = a ∧ d.to_e e = b

/-- The edges form a directed acyclic graph: no node reaches itself along one
or more edges (so there is no self-loop and no directed cycle). -/
def Acyclic (d : Data K) : Prop :=
  ∀ i : Fin d.N, ¬ Relation.TransGen (edgeRel d) i i

/-- The sum-of-conditionals form in the words of the specification: the sum over
the nodes `n` of the squared residual `x[n] - sum_j Gamma[n,j]*x[j]` divided by
`v_n[n]`. -/
def sumOfConditionals {N : Nat} (G : Matrix (Fin N) (Fin N) K) (v : Fin N → K)
    (x : Fin N → K) : K :=
  ∑ n, (x n - ∑ j, G n j * x j) ^ 2 / v n

end Specification

section Graph

variable {K : Type}

/-- A rank function that increases along every edge rules out directed cycles. -/
theorem acyclic_of_rank (d : Data K) (r : Fin d.N → ℕ)
    (hr : ∀ e : Fin d.E, r (d.from_e e) < r (d.to_e e)) : Acyclic d := by
  have hlt : ∀ a b, Relation.TransGen (edgeRel d) a b → r a < r b := by
    intro a b h
    induction h with
    | single h =>
      obtain ⟨e, rfl, rfl⟩ := h
      exact hr e
    | tail _ h ih =>
      obtain ⟨e, rfl, rfl⟩ := h
      exact lt_trans ih (hr e)
  intro i h
  exact lt_irrefl _ (hlt i i h)

/-- On an acyclic network the number of ancestors of a node is a rank function
that increases along every edge. -/
theorem exists_rank (d : Data K) (hd : Acyclic d) :
    ∃ r : Fin d.N → ℕ, ∀ e : Fin d.E, r (d.from_e e) < r (d.to_e e) := by
  refine ⟨fun i => Set.ncard {j | Relation.TransGen (edgeRel d) j i}, fun e => ?_⟩
  apply Set.ncard_lt_ncard _ (Set.toFinite _)
  have hedge : edgeRel d (d.from_e e) (d.to_e e) := ⟨e, rfl, rfl⟩
  refine ⟨fun j hj => Relation.TransGen.tail hj hedge, fun hsub => ?_⟩
  exact hd (d.from_e e) (hsub (Relation.TransGen.single hedge))

end Graph

section Lemmas

variable {K : Type} [Field K]

/-- Loop invariant rule for a `for` loop over `0..n-1`: a property that holds
before the loop and is carried over by each iteration holds after the loop. -/
theorem foldl_invariant {α : Type} {n : Nat} (P : Nat → α → Prop) (f : α → Fin n → α) (x : α)
    (h0 : P 0 x) (hstep : ∀ (k : Fin n) (a : α), P k.val a → P (k.val + 1) (f a k)) :
    P n (Fin.foldl n f x) := by
  induction n with
  | zero => simpa using h0
  | succ m ih =>
    rw [Fin.foldl_succ_last]
    exact hstep (Fin.last m) _ (ih (fun a i => f a i.castSucc) (fun k a hk => hstep k.castSucc a hk))

/-- After the edge loop, `v_n(n)` is the sum of `weight(e)*var(e)` over the
edges that point into `n`. -/
theorem edgeLoop_v_n (F : Elementary K) (th : K) (d : Data K) (n : Fin d.N) :
    (edgeLoop F th d).v_n n
      = ∑ e : Fin d.E, if d.to_e e = n then weight d e * var F th d e else 0 := by
  have h := foldl_invariant
    (fun k (s : EdgeState K d.N) => ∀ n, s.v_n n
      = ∑ e : Fin d.E, if e.val < k ∧ d.to_e e = n then weight d e * var F th d e else 0)
    (edgeStep F th d) (edgeInit d.N) (by intro n; simp [edgeInit]) (by
      intro k s hs n
      have hsplit : ∀ e : Fin d.E,
          (if e.val < k.val + 1 ∧ d.to_e e = n then weight d e * var F th d e else 0)
            = (if e.val < k.val ∧ d.to_e e = n then weight d e * var F th d e else 0)
              + (if e = k then (if d.to_e k = n then weight d k * var F th d k else 0) else 0) := by
        intro e
        by_cases hek : e = k
        · subst hek; simp
        · have hne : e.val ≠ k.val := fun h => hek (Fin.ext h)
          have hiff : e.val < k.val + 1 ↔ e.val < k.val := by omega
          simp [hek, hiff]
      simp only [hsplit, Finset.sum_add_distrib, Finset.sum_ite_eq', Finset.mem_univ, if_true]
      rw [← hs n]
      by_cases hn : n = d.to_e k
      · subst hn; simp [edgeStep]
      · have hn2 : ¬ d.to_e k = n := fun h => hn h.symm
        simp [edgeStep, hn, hn2])
  have h2 := h n
  simpa using h2

/-- After the edge loop an entry of `Gamma` holds the value assigned by the last
edge of the list with that `(to, from)` pair. -/
theorem Gamma_last (F : Elementary K) (th : K) (d : Data K) (i j : Fin d.N) (e : Fin d.E)
    (hto : d.to_e e = i) (hfrom : d.from_e e = j)
    (hlast : ∀ e2 : Fin d.E, e < e2 → ¬ (d.to_e e2 = i ∧ d.from_e e2 = j)) :
    Gamma F th d i j = weight d e * rho F th d e := by
  have h := foldl_invariant
    (fun k (s : EdgeState K d.N) => ∀ e : Fin d.E, e.val < k → d.to_e e = i → d.from_e e = j →
      (∀ e2 : Fin d.E, e2.val < k → e < e2 → ¬ (d.to_e e2 = i ∧ d.from_e e2 = j)) →
      s.Gamma i j = weight d e * rho F th d e)
    (edgeStep F th d) (edgeInit d.N) (by intro e he; omega) (by
      intro k s hs e he hto hfrom hl
      by_cases hk : i = d.to_e k ∧ j = d.from_e k
      · have hek : e = k := by
          by_contra hne
          have hlt : e < k := by
            rw [Fin.lt_def]
            have : e.val ≠ k.val := fun h => hne (Fin.ext h)
            omega
          exact hl k (Nat.lt_succ_self _) hlt ⟨hk.1.symm, hk.2.symm⟩
        subst hek
        simp [edgeStep, hk]
      · have hek : e ≠ k := by
          rintro rfl
          exact hk ⟨hto.symm, hfrom.symm⟩
        have hlt : e.val < k.val := by
          have : e.val ≠ k.val := fun h => hek (Fin.ext h)
          omega
        have := hs e hlt hto hfrom (fun e2 h2 h3 => hl e2 (by omega) h3)
        simp only [edgeStep, if_neg hk]
        exact this)
  exact h e e.isLt hto hfrom (fun e2 _ h3 => hlast e2 h3)

/-- An entry of `Gamma` that no edge addresses is never inserted and reads zero. -/
theorem Gamma_none (F : Elementary K) (th : K) (d : Data K) (i j : Fin d.N)
    (hno : ∀ e : Fin d.E, ¬ (d.to_e e = i ∧ d.from_e e = j)) :
    Gamma F th d i j = 0 := by
  have h := foldl_invariant
    (fun _ (s : EdgeState K d.N) => s.Gamma i j = 0)
    (edgeStep F th d) (edgeInit d.N) (by simp [edgeInit]) (by
      intro k s hs
      have hk : ¬ (i = d.to_e k ∧ j = d.from_e k) := fun h => hno k ⟨h.1.symm, h.2.symm⟩
      simp only [edgeStep, if_neg hk]
      exact hs)
  exact h

/-- The source loop leaves `v_n` at 1 on every listed source node. -/
theorem v_n_source (F : Elementary K) (th : K) (d : Data K) (s : Fin d.S) :
    v_n F th d (d.source_s s) = 1 := by
  have h := foldl_invariant
    (fun k (v : Fin d.N → K) => ∀ s : Fin d.S, s.val < k → v (d.source_s s) = 1)
    (sourceStep d) (edgeLoop F th d).v_n (by intro s hs; omega) (by
      intro k v hv s hs
      by_cases hk : d.source_s s = d.source_s k
      · simp [sourceStep, hk]
      · have hsk : s.val ≠ k.val := fun h => hk (by rw [Fin.ext h])
        simp only [sourceStep, if_neg hk]
        exact hv s (by omega))
  exact h s s.isLt

/-- The source loop does not touch a node that is not listed as a source. -/
theorem v_n_not_source (F : Elementary K) (th : K) (d : Data K) (n : Fin d.N)
    (hn : ∀ s : Fin d.S, d.source_s s ≠ n) :
    v_n F th d n = (edgeLoop F th d).v_n n := by
  have h := foldl_invariant
    (fun _ (v : Fin d.N → K) => v n = (edgeLoop F th d).v_n n)
    (sourceStep d) (edgeLoop F th d).v_n rfl (by
      intro k v hv
      have hk : ¬ n = d.source_s k := fun h => hn k h.symm
      simp only [sourceStep, if_neg hk]
      exact hv)
  exact h

/-- A node with no incoming edge that is not listed as a source has `v_n = 0`. -/
theorem v_n_orphan (F : Elementary K) (th : K) (d : Data K) (n : Fin d.N)
    (hin : ∀ e : Fin d.E, d.to_e e ≠ n) (hsrc : ∀ s : Fin d.S, d.source_s s ≠ n) :
    v_n F th d n = 0 := by
  rw [v_n_not_source F th d n hsrc, edgeLoop_v_n]
  exact Finset.sum_eq_zero (fun e _ => if_neg (hin e))

/-- The loop that fills `V` builds the diagonal matrix of the `pow(v_n(n), -1)`. -/
theorem V_eq_diagonal (F : Elementary K) (th : K) (d : Data K) :
    V F th d = Matrix.diagonal (fun n => F.pow (v_n F th d n) (-1)) := by
  have h := foldl_invariant
    (fun k (M : Matrix (Fin d.N) (Fin d.N) K) => ∀ i j, M i j
      = if i = j ∧ i.val < k then F.pow (v_n F th d i) (-1) else 0)
    (VStep F th d) (fun _ _ => 0) (by intro i j; simp) (by
      intro k M hM i j
      by_cases hk : i = k ∧ j = k
      · obtain ⟨rfl, rfl⟩ := hk
        simp [VStep]
      · simp only [VStep, if_neg hk, hM i j]
        by_cases hij : i = j
        · subst hij
          have hik : i.val ≠ k.val := fun h => hk ⟨Fin.ext h, Fin.ext h⟩
          have hiff : i.val < k.val + 1 ↔ i.val < k.val := by omega
          simp [hiff]
        · simp [hij])
  ext i j
  have h2 : V F th d i j = _ := h i j
  rw [h2, Matrix.diagonal_apply]
  by_cases hij : i = j
  · subst hij; simp
  · simp [hij]

/-- The quadratic form of `Q` is the `V`-weighted sum of the squared residuals
`x(n) - sum_j Gamma(n,j)*x(j)`. -/
theorem Q_quadform (F : Elementary K) (th : K) (d : Data K) (x : Fin d.N → K) :
    Matrix.dotProduct x ((Q F th d).mulVec x)
      = ∑ n, (x n - ∑ j, Gamma F th d n j * x j) ^ 2 * F.pow (v_n F th d n) (-1) := by
  have hA : ∀ n, (I d.N - Gamma F th d).mulVec x n = x n - ∑ j, Gamma F th d n j * x j := by
    intro n
    rw [Matrix.sub_mulVec, I, Matrix.one_mulVec]
    simp [Matrix.mulVec, Matrix.dotProduct]
  unfold Q
  rw [← Matrix.mulVec_mulVec, ← Matrix.mulVec_mulVec, Matrix.dotProduct_mulVec,
    Matrix.vecMul_transpose, V_eq_diagonal]
  simp only [Matrix.dotProduct, Matrix.mulVec_diagonal, hA]
  refine Finset.sum_congr rfl (fun n _ => ?_)
  ring

/-- The matrix `Q` equals its transpose. -/
theorem Q_transpose (F : Elementary K) (th : K) (d : Data K) :
    (Q F th d).transpose = Q F th d := by
  unfold Q
  rw [V_eq_diagonal]
  simp only [Matrix.transpose_mul, Matrix.transpose_transpose, Matrix.diagonal_transpose,
    Matrix.mul_assoc]

/-- The quadratic form of `Q` is non-negative as soon as `pow(., -1)` is
non-negative on the positive `v_n`. -/
theorem Q_quadform_nonneg {L : Type} [LinearOrderedField L] (F : Elementary L) (th : L)
    (d : Data L) (hpow : ∀ x : L, 0 < x → 0 ≤ F.pow x (-1))
    (hv : ∀ n, 0 < v_n F th d n) (x : Fin d.N → L) :
    0 ≤ Matrix.dotProduct x ((Q F th d).mulVec x) := by
  rw [Q_quadform]
  exact Finset.sum_nonneg (fun n _ => mul_nonneg (sq_nonneg _) (hpow _ (hv n)))

/-- On the reals `pow(x, -1)` is non-negative for positive `x`. -/
theorem real_pow_neg_one_nonneg (x : ℝ) (hx : 0 < x) : 0 ≤ Real.rpow x (-1) := by
  rw [Real.rpow_eq_pow, Real.rpow_neg_one]
  exact (inv_pos.mpr hx).le

/-- On the reals `pow(1, -1) = 1`. -/
theorem real_pow_one_neg_one : Real.rpow 1 (-1) = 1 := by
  rw [Real.rpow_eq_pow, Real.one_rpow]

/-- With no edge and every node listed as a source, `Gamma` is zero and `V` and
`Q` are the identity, provided `pow(1, -1) = 1`. -/
theorem zero_edges (F : Elementary K) (th : K) (d : Data K) (hpow : F.pow 1 (-1) = 1)
    (hE : d.E = 0) (hS : ∀ n : Fin d.N, ∃ s : Fin d.S, d.source_s s = n) :
    Q F th d = 1 ∧ Gamma F th d = 0 ∧ V F th d = 1 := by
  have hG : Gamma F th d = 0 := by
    ext i j
    exact Gamma_none F th d i j (fun e => absurd e.isLt (by omega))
  have hV : V F th d = 1 := by
    have hv : (fun n => F.pow (v_n F th d n) (-1)) = fun _ => (1 : K) := by
      funext n
      obtain ⟨s, hs⟩ := hS n
      rw [← hs, v_n_source, hpow]
    rw [V_eq_diagonal, hv, Matrix.diagonal_one]
  refine ⟨?_, hG, hV⟩
  unfold Q
  rw [hG, hV]
  simp [I]

/-- On the two-node chain the source node has `v_n = 1`. -/
theorem chain2_v_n_zero (F : Elementary K) (th : K) :
    v_n F th (chain2 K) 0 = 1 :=
  v_n_source F th (chain2 K) (0 : Fin 1)

/-- On the two-node chain the downstream node has `v_n = 1 - exp(-2*theta*1)`. -/
theorem chain2_v_n_one (F : Elementary K) (th : K) :
    v_n F th (chain2 K) 1 = 1 - F.exp (-2 * th * 1) := by
  rw [v_n_not_source F th (chain2 K) 1 (by intro s; fin_cases s; simp [chain2]), edgeLoop_v_n]
  simp [chain2, weight, var]

/-- On the two-node chain with `theta = 1` every `v_n` is positive. -/
theorem chain2_v_n_pos (n : Fin (chain2 ℝ).N) :
    0 < v_n (Elementary.mk Real.exp Real.log Real.rpow Real.pi) 1 (chain2 ℝ) n := by
  have h0 := chain2_v_n_zero (Elementary.mk Real.exp Real.log Real.rpow Real.pi) (1 : ℝ)
  have h1 := chain2_v_n_one (Elementary.mk Real.exp Real.log Real.rpow Real.pi) (1 : ℝ)
  have he : Real.exp (-2 * 1 * 1) < 1 := by
    rw [Real.exp_lt_one_iff]; norm_num
  fin_cases n
  · show 0 < v_n _ 1 (chain2 ℝ) 0
    rw [h0]; norm_num
  · show 0 < v_n _ 1 (chain2 ℝ) 1
    rw [h1]; linarith

/-- On the network with two parallel edges the entry `Gamma(1,0)` is the value
of the second edge. -/
theorem parallel2_Gamma (F : Elementary K) (th : K) :
    Gamma F th (parallel2 K) 1 0 = F.exp (-th * 0) := by
  rw [Gamma_last F th (parallel2 K) 1 0 1 rfl rfl (by
    intro e2 h2
    have h3 : 1 < e2.val := h2
    have h4 : e2.val < 2 := e2.isLt
    omega)]
  simp [parallel2, weight, rho]

/-- Closed form of line 93 over the reals:
`(1/2)*beta1^2*psi^T Q psi - (1/2)*ln det Q + (N/2)*ln(2*pi) - N*ln(beta1)`. -/
theorem spatialTerm_real {N : Nat} (Q : Matrix (Fin N) (Fin N) ℝ) (b : ℝ) (psi : Fin N → ℝ) :
    spatialTerm (Elementary.mk Real.exp Real.log Real.rpow Real.pi) Q b psi
      = 1 / 2 * b ^ 2 * Matrix.dotProduct psi (Q.mulVec psi) - 1 / 2 * Real.log Q.det
        + (N : ℝ) / 2 * Real.log (2 * Real.pi) - (N : ℝ) * Real.log b := by
  have hpsi : (fun n => psi n / (1 / b)) = b • psi := by
    funext n
    simp [div_eq_mul_inv, mul_comm]
  unfold spatialTerm SCALE GMRF
  rw [hpsi]
  simp only [Matrix.mulVec_smul, Matrix.dotProduct_smul, Matrix.smul_dotProduct,
    smul_eq_mul, one_div, Real.log_inv]
  ring

/-- The quadratic form of the identity matrix is the sum of squares. -/
theorem dotProduct_one_mulVec {N : Nat} (x : Fin N → ℝ) :
    Matrix.dotProduct x ((1 : Matrix (Fin N) (Fin N) ℝ).mulVec x) = ∑ n, x n ^ 2 := by
  rw [Matrix.one_mulVec]
  exact Finset.sum_congr rfl (fun n _ => (sq (x n)).symm)

/-- Closed form of `jnll(0)` on a network with no edge and every node a source. -/
theorem jnll0_isolated (d : Data ℝ) (p : Parameters ℝ d.N d.n_t) (hE : d.E = 0)
    (hS : ∀ n : Fin d.N, ∃ s : Fin d.S, d.source_s s = n) :
    jnll0 (Elementary.mk Real.exp Real.log Real.rpow Real.pi) d p
      = 1 / 2 * Real.exp p.logbeta1 ^ 2 * ∑ n, p.psi_n n ^ 2 - (d.N : ℝ) * p.logbeta1
        + (d.N : ℝ) / 2 * Real.log (2 * Real.pi) := by
  unfold jnll0
  rw [(zero_edges _ _ d real_pow_one_neg_one hE hS).1, spatialTerm_real, dotProduct_one_mulVec]
  simp only [beta1, Matrix.det_one, Real.log_one, Real.log_exp]
  ring

/-- On a network of isolated source nodes `Q` is positive definite. -/
theorem isolated_Q_posDef (th : ℝ) (N : Nat) :
    (Q (Elementary.mk Real.exp Real.log Real.rpow Real.pi) th (isolated ℝ N)).PosDef := by
  rw [(zero_edges _ th (isolated ℝ N) real_pow_one_neg_one rfl (fun n => ⟨n, rfl⟩)).1]
  exact Matrix.PosDef.one

/-- The space-time loop adds up the contributions of the time steps. -/
theorem temporalTerm_eq_sum (F : Elementary K) {N n_t : Nat} (Q : Matrix (Fin N) (Fin N) K)
    (b2 : K) (omega : Fin N → Fin n_t → K) :
    temporalTerm F Q b2 omega = ∑ t : Fin n_t, temporalStep F Q b2 omega 0 t := by
  have h := foldl_invariant
    (fun k (acc : K) => acc
      = ∑ t : Fin n_t, if t.val < k then temporalStep F Q b2 omega 0 t else 0)
    (temporalStep F Q b2 omega) 0 (by simp) (by
      intro k acc hacc
      have hsplit : ∀ t : Fin n_t,
          (if t.val < k.val + 1 then temporalStep F Q b2 omega 0 t else 0)
            = (if t.val < k.val then temporalStep F Q b2 omega 0 t else 0)
              + (if t = k then temporalStep F Q b2 omega 0 k else 0) := by
        intro t
        by_cases htk : t = k
        · subst htk; simp
        · have hne : t.val ≠ k.val := fun h => htk (Fin.ext h)
          have hiff : t.val < k.val + 1 ↔ t.val < k.val := by omega
          simp [htk, hiff]
      simp only [hsplit, Finset.sum_add_distrib, Finset.sum_ite_eq', Finset.mem_univ, if_true]
      rw [← hacc]
      unfold temporalStep
      split_ifs <;> ring)
  have h2 : temporalTerm F Q b2 omega = _ := h
  rw [h2]
  exact Finset.sum_congr rfl (fun t _ => if_pos t.isLt)

/-- A loop that adds `g(i)` to an accumulator at every iteration ends with the
initial value plus the sum of the `g(i)`. -/
theorem foldl_add_sum {n : Nat} (g : Fin n → K) (init : K) :
    Fin.foldl n (fun acc i => acc + g i) init = init + ∑ i, g i := by
  have h := foldl_invariant
    (fun k (acc : K) => acc = init + ∑ i : Fin n, if i.val < k then g i else 0)
    (fun acc i => acc + g i) init (by simp) (by
      intro k acc hacc
      have hsplit : ∀ i : Fin n,
          (if i.val < k.val + 1 then g i else 0)
            = (if i.val < k.val then g i else 0) + (if i = k then g k else 0) := by
        intro i
        by_cases hik : i = k
        · subst hik; simp
        · have hne : i.val ≠ k.val := fun h => hik (Fin.ext h)
          have hiff : i.val < k.val + 1 ↔ i.val < k.val := by omega
          simp [hik, hiff]
      simp only [hsplit, Finset.sum_add_distrib, Finset.sum_ite_eq', Finset.mem_univ, if_true]
      rw [hacc]; ring)
  rw [h]
  congr 1
  exact Finset.sum_congr rfl (fun i _ => if_pos i.isLt)

/-- The body of the inner observation loop adds the contribution of one cell:
minus its `dnorm` when the cell is observed, nothing when it is `NA`. -/
theorem obsStep_eq (F : Elementary K) (d : Data K) (p : Parameters K d.N d.n_t) (n : Fin d.N)
    (acc : K) (t : Fin d.n_t) :
    obsStep F d p n acc t
      = acc + (match d.y_nt n t with
          | some y => -dnorm F y (z_nt p n t) (sigma_y F p)
          | none => 0) := by
  unfold obsStep
  cases d.y_nt n t with
  | none => simp
  | some y => simp [sub_eq_add_neg]

/-- The two nested observation loops add up the contributions of all cells. -/
theorem jnll2_eq_sum (F : Elementary K) (d : Data K) (p : Parameters K d.N d.n_t) :
    jnll2 F d p = ∑ n, ∑ t, (match d.y_nt n t with
          | some y => -dnorm F y (z_nt p n t) (sigma_y F p)
          | none => 0) := by
  unfold jnll2
  have hinner : ∀ (acc : K) (n : Fin d.N), Fin.foldl d.n_t (obsStep F d p n) acc
      = acc + ∑ t, (match d.y_nt n t with
          | some y => -dnorm F y (z_nt p n t) (sigma_y F p)
          | none => 0) := by
    intro acc n
    have hf : obsStep F d p n = fun acc t => acc + (match d.y_nt n t with
          | some y => -dnorm F y (z_nt p n t) (sigma_y F p)
          | none => 0) := by
      funext acc t
      exact obsStep_eq F d p n acc t
    rw [hf, foldl_add_sum]
  have houter : (fun acc n => Fin.foldl d.n_t (obsStep F d p n) acc)
      = fun acc n => acc + ∑ t, (match d.y_nt n t with
          | some y => -dnorm F y (z_nt p n t) (sigma_y F p)
          | none => 0) := by
    funext acc n
    exact hinner acc n
  rw [houter, foldl_add_sum, zero_add]

/-- The sum over all cells of a quantity that is `c` at one cell and zero
elsewhere is `c`. -/
theorem sum_cell_indicator {N n_t : Nat} (n : Fin N) (t : Fin n_t) (c : K) :
    (∑ n2 : Fin N, ∑ t2 : Fin n_t, if n2 = n ∧ t2 = t then c else 0) = c := by
  simp [ite_and, Finset.sum_ite_eq']

/-- Storing a value in one cell changes `jnll(2)` by minus the `dnorm` of that
cell, compared with marking the cell as missing. -/
theorem jnll2_setCell_some (F : Elementary K) (d : Data K) (p : Parameters K d.N d.n_t)
    (n : Fin d.N) (t : Fin d.n_t) (v : K) :
    jnll2 F (withY d (setCell d.y_nt n t (some v))) p
      = jnll2 F (withY d (setCell d.y_nt n t none)) p
        + -dnorm F v (z_nt p n t) (sigma_y F p) := by
  rw [jnll2_eq_sum, jnll2_eq_sum]
  conv_rhs => rw [← sum_cell_indicator n t (-dnorm F v (z_nt p n t) (sigma_y F p))]
  simp only [← Finset.sum_add_distrib]
  refine Finset.sum_congr rfl (fun n2 _ => Finset.sum_congr rfl (fun t2 _ => ?_))
  by_cases h : n2 = n ∧ t2 = t
  · obtain ⟨rfl, rfl⟩ := h
    simp [setCell]
  · simp [setCell, h]

/-- The vector `v_n` on the three-node chain. -/
theorem chain3_v_n (F : Elementary K) (th : K) :
    v_n F th (chain3 K) 0 = 1 ∧
    v_n F th (chain3 K) 1 = 1 - F.exp (-2 * th * 1) ∧
    v_n F th (chain3 K) 2 = 1 - F.exp (-2 * th * 1) := by
  refine ⟨v_n_source F th (chain3 K) (0 : Fin 1), ?_, ?_⟩
  · rw [v_n_not_source F th (chain3 K) 1 (by intro s; fin_cases s; simp [chain3]), edgeLoop_v_n]
    show (∑ e : Fin 2, _) = _
    rw [Fin.sum_univ_two]
    simp [chain3, weight, var]
  · rw [v_n_not_source F th (chain3 K) 2 (by intro s; fin_cases s; simp [chain3]), edgeLoop_v_n]
    show (∑ e : Fin 2, _) = _
    rw [Fin.sum_univ_two]
    simp [chain3, weight, var]

/-- The entries of `Gamma` on the three-node chain. -/
theorem chain3_Gamma (F : Elementary K) (th : K) :
    Gamma F th (chain3 K) 1 0 = F.exp (-th * 1) ∧
    Gamma F th (chain3 K) 2 1 = F.exp (-th * 1) ∧
    ∀ i j : Fin 3, ¬ ((i = 1 ∧ j = 0) ∨ (i = 2 ∧ j = 1)) → Gamma F th (chain3 K) i j = 0 := by
  refine ⟨?_, ?_, fun i j hij => ?_⟩
  · rw [Gamma_last F th (chain3 K) 1 0 0 rfl rfl (by
      intro e2 h2
      fin_cases e2
      · exact absurd h2 (lt_irrefl _)
      · simp [chain3])]
    simp [chain3, weight, rho]
  · rw [Gamma_last F th (chain3 K) 2 1 1 rfl rfl (by
      intro e2 h2
      have h3 : 1 < e2.val := h2
      have h4 : e2.val < 2 := e2.isLt
      omega)]
    simp [chain3, weight, rho]
  · apply Gamma_none
    intro e he
    apply hij
    fin_cases e
    · left; exact ⟨he.1.symm, he.2.symm⟩
    · right; exact ⟨he.1.symm, he.2.symm⟩

/-- A non-zero entry `Gamma(i,j)` comes from an edge from `j` to `i`. -/
theorem Gamma_edge (F : Elementary K) (th : K) (d : Data K) (i j : Fin d.N)
    (h : Gamma F th d i j ≠ 0) : ∃ e : Fin d.E, d.from_e e = j ∧ d.to_e e = i := by
  by_contra hno
  exact h (Gamma_none F th d i j (fun e he => hno ⟨e, he.2, he.1⟩))

/-- Entry-wise form of line 89: `Q(i,j)` is the sum over `k` of
`(I-Gamma)(k,i) * pow(v_n(k), -1) * (I-Gamma)(k,j)`. -/
theorem Q_apply (F : Elementary K) (th : K) (d : Data K) (i j : Fin d.N) :
    Q F th d i j
      = ∑ k, (I d.N - Gamma F th d : Matrix (Fin d.N) (Fin d.N) K) k i
          * F.pow (v_n F th d k) (-1)
          * (I d.N - Gamma F th d : Matrix (Fin d.N) (Fin d.N) K) k j := by
  unfold Q
  rw [V_eq_diagonal, Matrix.mul_apply]
  refine Finset.sum_congr rfl (fun k _ => ?_)
  rw [Matrix.mul_diagonal, Matrix.transpose_apply]

/-- A non-zero entry `(I-Gamma)(k,i)` is on the diagonal or comes from an edge
from `i` to `k`. -/
theorem I_sub_Gamma_ne_zero (F : Elementary K) (th : K) (d : Data K) (k i : Fin d.N)
    (h : (I d.N - Gamma F th d : Matrix (Fin d.N) (Fin d.N) K) k i ≠ 0) :
    k = i ∨ edgeRel d i k := by
  by_cases hki : k = i
  · exact Or.inl hki
  · right
    apply Gamma_edge F th d k i
    intro hG
    apply h
    simp [I, Matrix.sub_apply, Matrix.one_apply, hki, hG]

/-- On the reals `pow(x, -1)` is the inverse of `x`. -/
theorem real_pow_neg_one (x : ℝ) : Real.rpow x (-1) = x⁻¹ := by
  rw [Real.rpow_eq_pow, Real.rpow_neg_one]

/-- Over the reals the quadratic form of `Q` is the sum-of-conditionals form. -/
theorem Q_quadform_real (th : ℝ) (d : Data ℝ) (x : Fin d.N → ℝ) :
    Matrix.dotProduct x
        ((Q (Elementary.mk Real.exp Real.log Real.rpow Real.pi) th d).mulVec x)
      = sumOfConditionals (Gamma (Elementary.mk Real.exp Real.log Real.rpow Real.pi) th d)
          (v_n (Elementary.mk Real.exp Real.log Real.rpow Real.pi) th d) x := by
  rw [Q_quadform]
  unfold sumOfConditionals
  refine Finset.sum_congr rfl (fun n _ => ?_)
  show _ * Real.rpow _ (-1) = _
  rw [real_pow_neg_one, div_eq_mul_inv]

/-- With a rank that increases along the edges, `Gamma(i,j)` is zero unless `j`
has a smaller rank than `i`. -/
theorem Gamma_zero_of_rank (F : Elementary K) (th : K) (d : Data K) (r : Fin d.N → ℕ)
    (hr : ∀ e : Fin d.E, r (d.from_e e) < r (d.to_e e)) (i j : Fin d.N) (hij : r i ≤ r j) :
    Gamma F th d i j = 0 := by
  by_contra h
  obtain ⟨e, he1, he2⟩ := Gamma_edge F th d i j h
  have := hr e
  rw [he1, he2] at this
  omega

/-- On an acyclic network a vector all of whose conditional residuals
`x(n) - sum_j Gamma(n,j)*x(j)` vanish is the zero vector. -/
theorem residual_zero (F : Elementary K) (th : K) (d : Data K) (hd : Acyclic d)
    (x : Fin d.N → K) (hres : ∀ n, x n - ∑ j, Gamma F th d n j * x j = 0) : x = 0 := by
  obtain ⟨r, hr⟩ := exists_rank d hd
  have hall : ∀ m : ℕ, ∀ n : Fin d.N, r n = m → x n = 0 := by
    intro m
    induction m using Nat.strong_induction_on with
    | _ m ih =>
      intro n hn
      have hx := sub_eq_zero.mp (hres n)
      rw [hx]
      apply Finset.sum_eq_zero
      intro j _
      by_cases hj : r j < r n
      · rw [ih (r j) (hn ▸ hj) j rfl, mul_zero]
      · rw [Gamma_zero_of_rank F th d r hr n j (not_lt.mp hj), zero_mul]
  funext n
  exact hall (r n) n rfl

/-- On an acyclic network `det(I - Gamma) = 1`. -/
theorem det_I_sub_Gamma (F : Elementary K) (th : K) (d : Data K) (hd : Acyclic d) :
    (I d.N - Gamma F th d : Matrix (Fin d.N) (Fin d.N) K).det = 1 := by
  obtain ⟨r, hr⟩ := exists_rank d hd
  have hG := Gamma_zero_of_rank F th d r hr
  rw [← Matrix.det_transpose]
  have hBT : Matrix.BlockTriangular
      (I d.N - Gamma F th d : Matrix (Fin d.N) (Fin d.N) K).transpose r := by
    intro i j hji
    have hne : j ≠ i := by
      rintro rfl
      exact lt_irrefl _ hji
    simp [I, Matrix.transpose_apply, Matrix.sub_apply, Matrix.one_apply, hne, hG j i hji.le]
  rw [hBT.det]
  apply Finset.prod_eq_one
  intro a _
  have hblock : Matrix.toSquareBlock
      (I d.N - Gamma F th d : Matrix (Fin d.N) (Fin d.N) K).transpose r a = 1 := by
    ext i j
    have hle : r j.val ≤ r i.val := by rw [i.2, j.2]
    by_cases hij : i = j
    · subst hij
      simp [Matrix.toSquareBlock_def, I, hG i.val i.val le_rfl]
    · have hval : i.val ≠ j.val := fun h => hij (Subtype.ext h)
      simp [Matrix.toSquareBlock_def, I, Matrix.one_apply, hij, hval, hval.symm,
        hG j.val i.val hle]
  rw [hblock, Matrix.det_one]

/-- On an acyclic network `det Q` is the product of the `pow(v_n(n), -1)`. -/
theorem det_Q (F : Elementary K) (th : K) (d : Data K) (hd : Acyclic d) :
    (Q F th d).det = ∏ n, F.pow (v_n F th d n) (-1) := by
  unfold Q
  rw [Matrix.det_mul, Matrix.det_mul, Matrix.det_transpose, det_I_sub_Gamma F th d hd,
    V_eq_diagonal, Matrix.det_diagonal]
  ring

/-- Over the reals, on an acyclic network with positive `v_n`, the quadratic
form of `Q` is positive at every non-zero vector. -/
theorem Q_quadform_pos (th : ℝ) (d : Data ℝ) (hd : Acyclic d)
    (hv : ∀ n, 0 < v_n (Elementary.mk Real.exp Real.log Real.rpow Real.pi) th d n)
    (x : Fin d.N → ℝ) (hx : x ≠ 0) :
    0 < Matrix.dotProduct x
      ((Q (Elementary.mk Real.exp Real.log Real.rpow Real.pi) th d).mulVec x) := by
  rw [Q_quadform]
  have hw : ∀ n, 0 < Real.rpow
      (v_n (Elementary.mk Real.exp Real.log Real.rpow Real.pi) th d n) (-1) := by
    intro n
    rw [real_pow_neg_one]
    exact inv_pos.mpr (hv n)
  have hnonneg : ∀ n ∈ (Finset.univ : Finset (Fin d.N)),
      0 ≤ (x n - ∑ j, Gamma (Elementary.mk Real.exp Real.log Real.rpow Real.pi) th d n j * x j)
          ^ 2
        * Real.rpow (v_n (Elementary.mk Real.exp Real.log Real.rpow Real.pi) th d n) (-1) :=
    fun n _ => mul_nonneg (sq_nonneg _) (hw n).le
  refine lt_of_le_of_ne (Finset.sum_nonneg hnonneg) (fun hzero => hx ?_)
  have hterm := (Finset.sum_eq_zero_iff_of_nonneg hnonneg).mp hzero.symm
  apply residual_zero (Elementary.mk Real.exp Real.log Real.rpow Real.pi) th d hd x
  intro n
  have h := hterm n (Finset.mem_univ n)
  rcases mul_eq_zero.mp h with h1 | h1
  · exact pow_eq_zero_iff (two_ne_zero) |>.mp h1
  · exact absurd h1 (hw n).ne.symm

/-- The two-node chain is acyclic. -/
theorem chain2_acyclic : Acyclic (chain2 K) := by
  apply acyclic_of_rank (chain2 K) (fun i => i.val)
  intro e
  fin_cases e
  simp [chain2]

/-- Over the reals, for `theta > 0` and an edge of non-negative length:
`var = 1 - rho^2`, `0 < rho <= 1`, `0 <= var < 1`, and `var = 0` exactly when the
length is zero. -/
theorem real_edge_quantities (th : ℝ) (hth : 0 < th) (d : Data ℝ) (e : Fin d.E)
    (hd : 0 ≤ d.dist_e e) :
    var (Elementary.mk Real.exp Real.log Real.rpow Real.pi) th d e
        = 1 - rho (Elementary.mk Real.exp Real.log Real.rpow Real.pi) th d e ^ 2 ∧
    0 < rho (Elementary.mk Real.exp Real.log Real.rpow Real.pi) th d e ∧
    rho (Elementary.mk Real.exp Real.log Real.rpow Real.pi) th d e ≤ 1 ∧
    0 ≤ var (Elementary.mk Real.exp Real.log Real.rpow Real.pi) th d e ∧
    var (Elementary.mk Real.exp Real.log Real.rpow Real.pi) th d e < 1 ∧
    (var (Elementary.mk Real.exp Real.log Real.rpow Real.pi) th d e = 0 ↔ d.dist_e e = 0) := by
  have hsq : Real.exp (-2 * th * d.dist_e e) = Real.exp (-th * d.dist_e e) ^ 2 := by
    rw [sq, ← Real.exp_add]
    congr 1
    ring
  have hprod : 0 ≤ th * d.dist_e e := mul_nonneg hth.le hd
  have hle : Real.exp (-2 * th * d.dist_e e) ≤ 1 := by
    rw [Real.exp_le_one_iff]
    nlinarith
  refine ⟨?_, Real.exp_pos _, ?_, ?_, ?_, ?_⟩
  · show 1 - Real.exp (-2 * th * d.dist_e e) = 1 - Real.exp (-th * d.dist_e e) ^ 2
    rw [hsq]
  · show Real.exp (-th * d.dist_e e) ≤ 1
    rw [Real.exp_le_one_iff]
    nlinarith
  · show 0 ≤ 1 - Real.exp (-2 * th * d.dist_e e)
    linarith
  · show 1 - Real.exp (-2 * th * d.dist_e e) < 1
    have := Real.exp_pos (-2 * th * d.dist_e e)
    linarith
  · show 1 - Real.exp (-2 * th * d.dist_e e) = 0 ↔ d.dist_e e = 0
    constructor
    · intro h
      have h1 : Real.exp (-2 * th * d.dist_e e) = 1 := by linarith
      have h2 : -2 * th * d.dist_e e = 0 := by
        rwa [Real.exp_eq_one_iff] at h1
      have h3 : th * d.dist_e e = 0 := by linarith
      rcases mul_eq_zero.mp h3 with h4 | h4
      · exact absurd h4 hth.ne.symm
      · exact h4
    · intro h
      rw [h]
      simp

/-- Over the reals, with positive flows, non-negative lengths and `theta > 0`,
the variance accumulated by the edge loop is non-negative, and positive at a node
that has an incoming edge of positive length. -/
theorem real_accumulated_nonneg (th : ℝ) (hth : 0 < th) (d : Data ℝ)
    (hflow : ∀ n, 0 < d.flow_n n) (hdist : ∀ e, 0 ≤ d.dist_e e) (n : Fin d.N) :
    0 ≤ (edgeLoop (Elementary.mk Real.exp Real.log Real.rpow Real.pi) th d).v_n n ∧
    ((∃ e, d.to_e e = n ∧ 0 < d.dist_e e) →
      0 < (edgeLoop (Elementary.mk Real.exp Real.log Real.rpow Real.pi) th d).v_n n) := by
  have hw : ∀ e, 0 < weight d e := fun e => div_pos (hflow _) (hflow _)
  have hterm : ∀ e ∈ (Finset.univ : Finset (Fin d.E)),
      0 ≤ (if d.to_e e = n then weight d e
          * var (Elementary.mk Real.exp Real.log Real.rpow Real.pi) th d e else 0) := by
    intro e _
    split_ifs
    · exact mul_nonneg (hw e).le (real_edge_quantities th hth d e (hdist e)).2.2.2.1
    · exact le_rfl
  rw [edgeLoop_v_n]
  refine ⟨Finset.sum_nonneg hterm, fun hex => ?_⟩
  obtain ⟨e, hto, hpos⟩ := hex
  refine Finset.sum_pos' hterm ⟨e, Finset.mem_univ e, ?_⟩
  rw [if_pos hto]
  have hq := real_edge_quantities th hth d e (hdist e)
  have hne : var (Elementary.mk Real.exp Real.log Real.rpow Real.pi) th d e ≠ 0 :=
    fun h => hpos.ne.symm (hq.2.2.2.2.2.mp h)
  exact mul_pos (hw e) (lt_of_le_of_ne hq.2.2.2.1 hne.symm)

/-- The entries of `Gamma` on the two-node chain. -/
theorem chain2_Gamma (F : Elementary K) (th : K) :
    Gamma F th (chain2 K) 0 0 = 0 ∧ Gamma F th (chain2 K) 0 1 = 0 ∧
    Gamma F th (chain2 K) 1 0 = F.exp (-th * 1) ∧ Gamma F th (chain2 K) 1 1 = 0 := by
  refine ⟨?_, ?_, ?_, ?_⟩
  · exact Gamma_none F th (chain2 K) 0 0 (by intro e; fin_cases e; simp [chain2])
  · exact Gamma_none F th (chain2 K) 0 1 (by intro e; fin_cases e; simp [chain2])
  · rw [Gamma_last F th (chain2 K) 1 0 0 rfl rfl (by
      intro e2 h2
      have h3 : 0 < e2.val := h2
      have h4 : e2.val < 1 := e2.isLt
      omega)]
    simp [chain2, weight, rho]
  · exact Gamma_none F th (chain2 K) 1 1 (by intro e; fin_cases e; simp [chain2])

/-- On the two-node chain with `theta = 1` the entry `Q(0,1)` is not zero. -/
theorem chain2_Q_offdiag :
    Q (Elementary.mk Real.exp Real.log Real.rpow Real.pi) 1 (chain2 ℝ) 0 1 ≠ 0 := by
  have hG := chain2_Gamma (Elementary.mk Real.exp Real.log Real.rpow Real.pi) (1 : ℝ)
  have hv := chain2_v_n_pos 1
  rw [Q_apply]
  show (∑ k : Fin 2, _) ≠ 0
  rw [Fin.sum_univ_two]
  have hw : v_n (Elementary.mk Real.exp Real.log Real.rpow Real.pi) 1 (chain2 ℝ) 1
      ^ (-1 : ℝ) ≠ 0 := by
    rw [Real.rpow_neg_one]
    exact inv_ne_zero hv.ne.symm
  simp only [I, Matrix.sub_apply, Matrix.one_apply, hG.1, hG.2.1, hG.2.2.1, hG.2.2.2]
  simpa using hw

end Lemmas

section Claims

variable {K : Type} [Field K]

/-- Claim C1: for every network in which every `v_n(n)` is non-zero, the
precision matrix `Q` is symmetric, `Q(i,j) = Q(j,i)` for all node indices `i`, `j`. -/
theorem C1_Q_symmetric (F : Elementary K) (th : K) (d : Data K)
    (_hv : ∀ n, v_n F th d n ≠ 0) (i j : Fin d.N) :
    Q F th d i j = Q F th d j i := by
  have h := congrFun (congrFun (Q_transpose F th d) j) i
  simpa [Matrix.transpose_apply] using h

/-- Claim C1 at the two-node chain with `theta = 1`, where every `v_n` is non-zero. -/
theorem C1_witness :
    (∀ n, v_n (Elementary.mk Real.exp Real.log Real.rpow Real.pi) 1 (chain2 ℝ) n ≠ 0) ∧
    Q (Elementary.mk Real.exp Real.log Real.rpow Real.pi) 1 (chain2 ℝ) 0 1
      = Q (Elementary.mk Real.exp Real.log Real.rpow Real.pi) 1 (chain2 ℝ) 1 0 :=
  ⟨fun n => (chain2_v_n_pos n).ne.symm,
   C1_Q_symmetric _ 1 (chain2 ℝ) (fun n => (chain2_v_n_pos n).ne.symm) 0 1⟩

/-- Claim C2: over the reals, for every network with `v_n(n) > 0` for every
node `n`, the precision matrix is positive semi-definite: `x^T Q x >= 0` for every
vector `x` of length `N`. -/
theorem C2_Q_posSemidef (th : ℝ) (d : Data ℝ)
    (hv : ∀ n, 0 < v_n (Elementary.mk Real.exp Real.log Real.rpow Real.pi) th d n)
    (x : Fin d.N → ℝ) :
    0 ≤ Matrix.dotProduct x
      ((Q (Elementary.mk Real.exp Real.log Real.rpow Real.pi) th d).mulVec x) :=
  Q_quadform_nonneg _ th d real_pow_neg_one_nonneg hv x

/-- Claim C2 at the two-node chain with `theta = 1` and the all-ones vector. -/
theorem C2_witness :
    (∀ n, 0 < v_n (Elementary.mk Real.exp Real.log Real.rpow Real.pi) 1 (chain2 ℝ) n) ∧
    0 ≤ Matrix.dotProduct (fun _ => (1 : ℝ))
      ((Q (Elementary.mk Real.exp Real.log Real.rpow Real.pi) 1 (chain2 ℝ)).mulVec
        (fun _ => (1 : ℝ))) :=
  ⟨chain2_v_n_pos, C2_Q_posSemidef 1 (chain2 ℝ) chain2_v_n_pos (fun _ => 1)⟩

/-- Claim C3, amended: for every edge list, `Gamma(i,j)` is `weight(e)*rho(e)`
for the last edge `e` of the list with `to(e) = i` and `from(e) = j` (the entry is
assigned, a later edge with the same pair overwrites it), and `Gamma(i,j) = 0` when
there is no such edge; when no two edges have the same from/to pair this is the sum of
`weight(e)*rho(e)` over the edges with `to(e) = i` and `from(e) = j`. -/
theorem C3_Gamma_last_edge (F : Elementary K) (th : K) (d : Data K) (i j : Fin d.N) :
    (∀ e : Fin d.E, d.to_e e = i → d.from_e e = j →
      (∀ e2 : Fin d.E, e < e2 → ¬ (d.to_e e2 = i ∧ d.from_e e2 = j)) →
      Gamma F th d i j = weight d e * rho F th d e) ∧
    ((∀ e : Fin d.E, ¬ (d.to_e e = i ∧ d.from_e e = j)) → Gamma F th d i j = 0) ∧
    ((∀ e1 e2 : Fin d.E, d.to_e e1 = d.to_e e2 → d.from_e e1 = d.from_e e2 → e1 = e2) →
      Gamma F th d i j
        = ∑ e in Finset.univ.filter (fun e : Fin d.E => d.to_e e = i ∧ d.from_e e = j),
            weight d e * rho F th d e) := by
  refine ⟨fun e hto hfrom hlast => Gamma_last F th d i j e hto hfrom hlast,
    Gamma_none F th d i j, fun hinj => ?_⟩
  by_cases hex : ∃ e : Fin d.E, d.to_e e = i ∧ d.from_e e = j
  · obtain ⟨e, hto, hfrom⟩ := hex
    have hfilter : Finset.univ.filter (fun e : Fin d.E => d.to_e e = i ∧ d.from_e e = j)
        = {e} := by
      ext e2
      simp only [Finset.mem_filter, Finset.mem_univ, true_and, Finset.mem_singleton]
      constructor
      · rintro ⟨h1, h2⟩
        exact hinj e2 e (h1.trans hto.symm) (h2.trans hfrom.symm)
      · rintro rfl
        exact ⟨hto, hfrom⟩
    rw [hfilter, Finset.sum_singleton]
    refine Gamma_last F th d i j e hto hfrom (fun e2 hlt h2 => ?_)
    have := hinj e2 e (h2.1.trans hto.symm) (h2.2.trans hfrom.symm)
    exact absurd this (ne_of_gt hlt)
  · have hno : ∀ e : Fin d.E, ¬ (d.to_e e = i ∧ d.from_e e = j) := fun e he => hex ⟨e, he⟩
    rw [Gamma_none F th d i j hno]
    symm
    apply Finset.sum_eq_zero
    intro e he
    exact absurd (Finset.mem_filter.mp he).2 (hno e)

/-- Claim C3, amended, at concrete networks: the last of two parallel edges, an
entry no edge addresses, and the two-node chain where edges have distinct pairs. -/
theorem C3_witness :
    Gamma (Elementary.mk Real.exp Real.log Real.rpow Real.pi) 1 (parallel2 ℝ) 1 0
      = weight (parallel2 ℝ) 1
        * rho (Elementary.mk Real.exp Real.log Real.rpow Real.pi) 1 (parallel2 ℝ) 1 ∧
    Gamma (Elementary.mk Real.exp Real.log Real.rpow Real.pi) 1 (parallel2 ℝ) 0 1 = 0 ∧
    Gamma (Elementary.mk Real.exp Real.log Real.rpow Real.pi) 1 (chain2 ℝ) 1 0
      = ∑ e in Finset.univ.filter
          (fun e : Fin (chain2 ℝ).E => (chain2 ℝ).to_e e = 1 ∧ (chain2 ℝ).from_e e = 0),
          weight (chain2 ℝ) e
            * rho (Elementary.mk Real.exp Real.log Real.rpow Real.pi) 1 (chain2 ℝ) e :=
  ⟨(C3_Gamma_last_edge _ 1 (parallel2 ℝ) 1 0).1 1 rfl rfl (by
      intro e2 h2
      fin_cases e2
      · exact absurd h2 (by decide)
      · exact absurd h2 (by decide)),
   (C3_Gamma_last_edge _ 1 (parallel2 ℝ) 0 1).2.1 (by
      intro e
      fin_cases e <;> simp [parallel2]),
   (C3_Gamma_last_edge _ 1 (chain2 ℝ) 1 0).2.2 (by
      intro e1 e2 _ _
      exact Subsingleton.elim e1 e2)⟩

/-- Claim C3 fails on two parallel edges `0 -> 1` of lengths 1 and 0 with unit
flows and `theta = 1`: the code leaves `Gamma(1,0) = 1`, the value of the second edge,
not the sum `exp(-1) + 1` over both edges. -/
theorem C3_counterexample :
    Gamma (Elementary.mk Real.exp Real.log Real.rpow Real.pi) 1 (parallel2 ℝ) 1 0 = 1 ∧
    Gamma (Elementary.mk Real.exp Real.log Real.rpow Real.pi) 1 (parallel2 ℝ) 1 0
      ≠ ∑ e in Finset.univ.filter
          (fun e : Fin (parallel2 ℝ).E => (parallel2 ℝ).to_e e = 1 ∧ (parallel2 ℝ).from_e e = 0),
          weight (parallel2 ℝ) e
            * rho (Elementary.mk Real.exp Real.log Real.rpow Real.pi) 1 (parallel2 ℝ) e := by
  have hG := parallel2_Gamma (Elementary.mk Real.exp Real.log Real.rpow Real.pi) (1 : ℝ)
  have hG1 : Gamma (Elementary.mk Real.exp Real.log Real.rpow Real.pi) 1 (parallel2 ℝ) 1 0
      = 1 := by
    rw [hG]; simp
  refine ⟨hG1, ?_⟩
  rw [hG1]
  have hfilter : Finset.univ.filter
      (fun e : Fin (parallel2 ℝ).E => (parallel2 ℝ).to_e e = 1 ∧ (parallel2 ℝ).from_e e = 0)
      = Finset.univ := by
    ext e
    fin_cases e <;> simp [parallel2]
  rw [hfilter]
  have hsum : (∑ e : Fin (parallel2 ℝ).E, weight (parallel2 ℝ) e
      * rho (Elementary.mk Real.exp Real.log Real.rpow Real.pi) 1 (parallel2 ℝ) e)
      = Real.exp (-1) + 1 := by
    show (∑ e : Fin 2, _) = _
    rw [Fin.sum_univ_two]
    simp [parallel2, weight, rho]
  rw [hsum]
  have := Real.exp_pos (-1)
  linarith

/-- Claim C4, amended: building `V` never reports an error; for every network
`V` is the diagonal matrix with `V(n,n) = pow(v_n(n), -1)`, assigned with no test on
`v_n(n)`, and for a node `n` with no incoming edge that is not listed in `source_s`,
`v_n(n) = 0` and `V(n,n) = pow(0, -1)`. -/
theorem C4_V_unguarded (F : Elementary K) (th : K) (d : Data K) :
    V F th d = Matrix.diagonal (fun n => F.pow (v_n F th d n) (-1)) ∧
    ∀ n : Fin d.N, (∀ e : Fin d.E, d.to_e e ≠ n) → (∀ s : Fin d.S, d.source_s s ≠ n) →
      v_n F th d n = 0 ∧ V F th d n n = F.pow 0 (-1) := by
  refine ⟨V_eq_diagonal F th d, fun n hin hsrc => ?_⟩
  have h0 := v_n_orphan F th d n hin hsrc
  refine ⟨h0, ?_⟩
  rw [V_eq_diagonal, Matrix.diagonal_apply_eq, h0]

/-- Claim C4, amended, at the network of one node with no edge and no source. -/
theorem C4_witness :
    v_n (Elementary.mk Real.exp Real.log Real.rpow Real.pi) 1 (orphan1 ℝ) 0 = 0 ∧
    V (Elementary.mk Real.exp Real.log Real.rpow Real.pi) 1 (orphan1 ℝ) 0 0
      = Real.rpow 0 (-1) :=
  (C4_V_unguarded (Elementary.mk Real.exp Real.log Real.rpow Real.pi) 1 (orphan1 ℝ)).2 0
    (fun e => e.elim0) (fun s => s.elim0)

/-- Claim C4 fails on the network of one node with no incoming edge and no
listed source: `v_n(0) = 0 <= 0`, yet `V(0,0)` is computed as `pow(0, -1)` and the
returned `Q(0,0)` is that same value; no error is reported. -/
theorem C4_counterexample :
    v_n (Elementary.mk Real.exp Real.log Real.rpow Real.pi) 1 (orphan1 ℝ) 0 ≤ 0 ∧
    V (Elementary.mk Real.exp Real.log Real.rpow Real.pi) 1 (orphan1 ℝ) 0 0
      = Real.rpow 0 (-1) ∧
    Q (Elementary.mk Real.exp Real.log Real.rpow Real.pi) 1 (orphan1 ℝ) 0 0
      = Real.rpow 0 (-1) := by
  have hv := v_n_orphan (Elementary.mk Real.exp Real.log Real.rpow Real.pi) 1 (orphan1 ℝ) 0
    (fun e => e.elim0) (fun s => s.elim0)
  have hV : V (Elementary.mk Real.exp Real.log Real.rpow Real.pi) 1 (orphan1 ℝ) 0 0
      = Real.rpow 0 (-1) := by
    rw [V_eq_diagonal, Matrix.diagonal_apply_eq, hv]
  have hG : Gamma (Elementary.mk Real.exp Real.log Real.rpow Real.pi) 1 (orphan1 ℝ) = 0 := by
    ext i j
    exact Gamma_none _ 1 (orphan1 ℝ) i j (fun e => e.elim0)
  refine ⟨hv.le, hV, ?_⟩
  rw [← hV]
  unfold Q
  rw [hG]
  simp [I]

/-- Claim C5: for every network, `v_n(s) = 1` for every node `s` listed in
`source_s`, whatever edges point into it, and for every node `n` not listed in
`source_s`, `v_n(n)` is the sum of `weight(e)*var(e)` over the edges with `to(e) = n`. -/
theorem C5_v_n (F : Elementary K) (th : K) (d : Data K) :
    (∀ s : Fin d.S, v_n F th d (d.source_s s) = 1) ∧
    (∀ n : Fin d.N, (∀ s : Fin d.S, d.source_s s ≠ n) →
      v_n F th d n
        = ∑ e in Finset.univ.filter (fun e : Fin d.E => d.to_e e = n),
            weight d e * var F th d e) := by
  refine ⟨v_n_source F th d, fun n hn => ?_⟩
  rw [v_n_not_source F th d n hn, edgeLoop_v_n, Finset.sum_filter]

/-- Claim C5 at the two-node chain: node 0 is a source, node 1 is not. -/
theorem C5_witness :
    v_n (Elementary.mk Real.exp Real.log Real.rpow Real.pi) 1 (chain2 ℝ) 0 = 1 ∧
    v_n (Elementary.mk Real.exp Real.log Real.rpow Real.pi) 1 (chain2 ℝ) 1
      = ∑ e in Finset.univ.filter (fun e : Fin (chain2 ℝ).E => (chain2 ℝ).to_e e = 1),
          weight (chain2 ℝ) e
            * var (Elementary.mk Real.exp Real.log Real.rpow Real.pi) 1 (chain2 ℝ) e :=
  ⟨(C5_v_n (Elementary.mk Real.exp Real.log Real.rpow Real.pi) 1 (chain2 ℝ)).1 0,
   (C5_v_n (Elementary.mk Real.exp Real.log Real.rpow Real.pi) 1 (chain2 ℝ)).2 1
     (by intro s; fin_cases s; simp [chain2])⟩

/-- Claim C6: over the reals, for every `N`, every `theta` and every network
with zero edges in which all nodes are listed as sources, `Q` is the identity matrix,
`Gamma` is the zero matrix and `V` is the identity matrix. -/
theorem C6_isolated_sources (th : ℝ) (d : Data ℝ) (hE : d.E = 0)
    (hS : ∀ n : Fin d.N, ∃ s : Fin d.S, d.source_s s = n) :
    Q (Elementary.mk Real.exp Real.log Real.rpow Real.pi) th d = 1 ∧
    Gamma (Elementary.mk Real.exp Real.log Real.rpow Real.pi) th d = 0 ∧
    V (Elementary.mk Real.exp Real.log Real.rpow Real.pi) th d = 1 :=
  zero_edges _ th d real_pow_one_neg_one hE hS

/-- Claim C6 at three isolated source nodes with `theta = 2`. -/
theorem C6_witness :
    (isolated ℝ 3).E = 0 ∧
    Q (Elementary.mk Real.exp Real.log Real.rpow Real.pi) 2 (isolated ℝ 3) = 1 ∧
    Gamma (Elementary.mk Real.exp Real.log Real.rpow Real.pi) 2 (isolated ℝ 3) = 0 ∧
    V (Elementary.mk Real.exp Real.log Real.rpow Real.pi) 2 (isolated ℝ 3) = 1 :=
  ⟨rfl, C6_isolated_sources 2 (isolated ℝ 3) rfl (fun n => ⟨n, rfl⟩)⟩

/-- Claim C7, amended: for a network with zero edges in which all `N` nodes are
sources, `jnll(0) = (1/2)*beta1^2*sum_n psi(n)^2 - N*logbeta1 + (N/2)*ln(2*pi)` with
`beta1 = exp(logbeta1)`; it equals the standard multivariate normal negative
log-likelihood `(1/2)*sum_n psi(n)^2 + (N/2)*ln(2*pi)` when `logbeta1 = 0`. -/
theorem C7_isolated_spatial_term (d : Data ℝ) (p : Parameters ℝ d.N d.n_t) (hE : d.E = 0)
    (hS : ∀ n : Fin d.N, ∃ s : Fin d.S, d.source_s s = n) :
    jnll0 (Elementary.mk Real.exp Real.log Real.rpow Real.pi) d p
      = 1 / 2 * Real.exp p.logbeta1 ^ 2 * ∑ n, p.psi_n n ^ 2 - (d.N : ℝ) * p.logbeta1
        + (d.N : ℝ) / 2 * Real.log (2 * Real.pi) ∧
    (p.logbeta1 = 0 →
      jnll0 (Elementary.mk Real.exp Real.log Real.rpow Real.pi) d p
        = 1 / 2 * ∑ n, p.psi_n n ^ 2 + (d.N : ℝ) / 2 * Real.log (2 * Real.pi)) := by
  refine ⟨jnll0_isolated d p hE hS, fun h0 => ?_⟩
  rw [jnll0_isolated d p hE hS, h0]
  simp

/-- Claim C7, amended, at two isolated source nodes, `psi = (3, 3)`, `logbeta1 = 0`. -/
theorem C7_witness :
    jnll0 (Elementary.mk Real.exp Real.log Real.rpow Real.pi) (isolated ℝ 2)
        { logtheta := 0, logsigma_y := 0, alpha := 0, logbeta1 := 0, logbeta2 := 0,
          psi_n := fun _ => 3, omega_nt := fun _ _ => 0 }
      = 1 / 2 * ∑ _n : Fin 2, (3 : ℝ) ^ 2 + ((2 : ℕ) : ℝ) / 2 * Real.log (2 * Real.pi) :=
  (C7_isolated_spatial_term (isolated ℝ 2)
    { logtheta := 0, logsigma_y := 0, alpha := 0, logbeta1 := 0, logbeta2 := 0,
      psi_n := fun _ => 3, omega_nt := fun _ _ => 0 } rfl (fun n => ⟨n, rfl⟩)).2 rfl

/-- Claim C7 fails for one isolated source node, `psi = 0` and `logbeta1 = 1`:
`jnll(0) = (1/2)*ln(2*pi) - 1`, not the standard normal value `(1/2)*ln(2*pi)`. -/
theorem C7_counterexample :
    jnll0 (Elementary.mk Real.exp Real.log Real.rpow Real.pi) (isolated ℝ 1)
        { logtheta := 0, logsigma_y := 0, alpha := 0, logbeta1 := 1, logbeta2 := 0,
          psi_n := fun _ => 0, omega_nt := fun _ _ => 0 }
      ≠ 1 / 2 * ∑ _n : Fin 1, (0 : ℝ) ^ 2 + ((1 : ℕ) : ℝ) / 2 * Real.log (2 * Real.pi) := by
  rw [jnll0_isolated (isolated ℝ 1) _ rfl (fun n => ⟨n, rfl⟩)]
  simp

/-- Claim C8, amended: for every network with positive definite `Q`, every
`psi` and every `beta1 > 0`, the spatial term is the negative log-density of `psi`
under the zero-mean normal with precision matrix `beta1^2 * Q`:
`(1/2)*psi^T (beta1^2 Q) psi - (1/2)*ln det(beta1^2 Q) + (N/2)*ln(2*pi)`. -/
theorem C8_spatial_term_precision (th : ℝ) (d : Data ℝ) (psi : Fin d.N → ℝ) (b1 : ℝ)
    (hb : 0 < b1)
    (hQ : (Q (Elementary.mk Real.exp Real.log Real.rpow Real.pi) th d).PosDef) :
    spatialTerm (Elementary.mk Real.exp Real.log Real.rpow Real.pi)
        (Q (Elementary.mk Real.exp Real.log Real.rpow Real.pi) th d) b1 psi
      = 1 / 2 * Matrix.dotProduct psi
            ((b1 ^ 2 • Q (Elementary.mk Real.exp Real.log Real.rpow Real.pi) th d).mulVec psi)
        - 1 / 2 * Real.log
            (b1 ^ 2 • Q (Elementary.mk Real.exp Real.log Real.rpow Real.pi) th d).det
        + (d.N : ℝ) / 2 * Real.log (2 * Real.pi) := by
  have hdet : (Q (Elementary.mk Real.exp Real.log Real.rpow Real.pi) th d).det ≠ 0 :=
    hQ.det_pos.ne.symm
  have hpow : (b1 ^ 2) ^ d.N ≠ 0 := pow_ne_zero _ (pow_ne_zero _ hb.ne.symm)
  rw [spatialTerm_real, Matrix.det_smul, Fintype.card_fin, Real.log_mul hpow hdet,
    Real.log_pow, Real.log_pow, Matrix.smul_mulVec_assoc, Matrix.dotProduct_smul]
  simp only [smul_eq_mul]
  push_cast
  ring

/-- Claim C8, amended, at two isolated source nodes, `beta1 = 3`, `psi = (1, 1)`. -/
theorem C8_witness :
    spatialTerm (Elementary.mk Real.exp Real.log Real.rpow Real.pi)
        (Q (Elementary.mk Real.exp Real.log Real.rpow Real.pi) 1 (isolated ℝ 2)) 3
        (fun _ => 1)
      = 1 / 2 * Matrix.dotProduct (fun _ => (1 : ℝ))
            (((3 : ℝ) ^ 2
                • Q (Elementary.mk Real.exp Real.log Real.rpow Real.pi) 1 (isolated ℝ 2)).mulVec
              (fun _ => 1))
        - 1 / 2 * Real.log
            ((3 : ℝ) ^ 2
              • Q (Elementary.mk Real.exp Real.log Real.rpow Real.pi) 1 (isolated ℝ 2)).det
        + ((2 : ℕ) : ℝ) / 2 * Real.log (2 * Real.pi) :=
  C8_spatial_term_precision 1 (isolated ℝ 2) (fun _ => 1) 3 (by norm_num)
    (isolated_Q_posDef 1 2)

/-- Claim C8 fails for one isolated source node (`Q = 1`, positive definite),
`beta1 = 2` and `psi = 0`: the code gives `(1/2)*ln(2*pi) - ln 2`, the density with
precision `beta1 * Q` gives `(1/2)*ln(2*pi) - (1/2)*ln 2`. -/
theorem C8_counterexample :
    (Q (Elementary.mk Real.exp Real.log Real.rpow Real.pi) 1 (isolated ℝ 1)).PosDef ∧
    (0 : ℝ) < 2 ∧
    spatialTerm (Elementary.mk Real.exp Real.log Real.rpow Real.pi)
        (Q (Elementary.mk Real.exp Real.log Real.rpow Real.pi) 1 (isolated ℝ 1)) 2
        (fun _ => 0)
      ≠ 1 / 2 * 2 * Matrix.dotProduct (fun _ => (0 : ℝ))
            ((Q (Elementary.mk Real.exp Real.log Real.rpow Real.pi) 1 (isolated ℝ 1)).mulVec
              (fun _ => 0))
        - 1 / 2 * Real.log
            ((2 : ℝ) • Q (Elementary.mk Real.exp Real.log Real.rpow Real.pi) 1 (isolated ℝ 1)).det
        + ((1 : ℕ) : ℝ) / 2 * Real.log (2 * Real.pi) := by
  refine ⟨isolated_Q_posDef 1 1, by norm_num, ?_⟩
  rw [spatialTerm_real,
    (zero_edges _ (1 : ℝ) (isolated ℝ 1) real_pow_one_neg_one rfl (fun n => ⟨n, rfl⟩)).1,
    Matrix.det_smul, Fintype.card_fin, dotProduct_one_mulVec]
  have hlog : 0 < Real.log 2 := Real.log_pos (by norm_num)
  simp only [Matrix.det_one, Real.log_one, Finset.univ_unique, Finset.sum_singleton]
  intro h
  norm_num at h
  linarith

/-- Claim C9: writing `S(b, psi)` for line 93 computed with `beta1 = b`, for
every network, every `psi`, every `b > 0` and every `k > 0`,
`S(k*b, psi) = S(b, k*psi) - N*ln(k)`. -/
theorem C9_spatial_scaling (th : ℝ) (d : Data ℝ) (psi : Fin d.N → ℝ) (b k : ℝ)
    (hb : 0 < b) (hk : 0 < k) :
    spatialTerm (Elementary.mk Real.exp Real.log Real.rpow Real.pi)
        (Q (Elementary.mk Real.exp Real.log Real.rpow Real.pi) th d) (k * b) psi
      = spatialTerm (Elementary.mk Real.exp Real.log Real.rpow Real.pi)
          (Q (Elementary.mk Real.exp Real.log Real.rpow Real.pi) th d) b (fun n => k * psi n)
        - (d.N : ℝ) * Real.log k := by
  have hpsi : (fun n => k * psi n) = k • psi := rfl
  rw [spatialTerm_real, spatialTerm_real, hpsi, Matrix.mulVec_smul, Matrix.dotProduct_smul,
    Matrix.smul_dotProduct, Real.log_mul hk.ne.symm hb.ne.symm]
  simp only [smul_eq_mul]
  ring

/-- Claim C9 at the two-node chain with `b = 3`, `k = 2` and `psi = (1, 1)`. -/
theorem C9_witness :
    spatialTerm (Elementary.mk Real.exp Real.log Real.rpow Real.pi)
        (Q (Elementary.mk Real.exp Real.log Real.rpow Real.pi) 1 (chain2 ℝ)) (2 * 3)
        (fun _ => 1)
      = spatialTerm (Elementary.mk Real.exp Real.log Real.rpow Real.pi)
          (Q (Elementary.mk Real.exp Real.log Real.rpow Real.pi) 1 (chain2 ℝ)) 3
          (fun n => 2 * (fun _ => (1 : ℝ)) n)
        - ((2 : ℕ) : ℝ) * Real.log 2 :=
  C9_spatial_scaling 1 (chain2 ℝ) (fun _ => 1) 3 2 (by norm_num) (by norm_num)

/-- Claim C10: `rhoW = 1`; `jnll(1) = 0` when `n_t = 0`; and for `n_t = m + 1`,
`jnll(1) = D(omega[:,0]) + sum over t = 1..m of D(omega[:,t] - rhoW*omega[:,t-1])`
where `D = SCALE(GMRF(Q), 1/beta2)` is the same function for step 0 and for every
later step. -/
theorem C10_temporal_term (N : Nat) (Q : Matrix (Fin N) (Fin N) ℝ) (b2 : ℝ) :
    (rhoW : ℝ) = 1 ∧
    (∀ omega : Fin N → Fin 0 → ℝ,
      temporalTerm (Elementary.mk Real.exp Real.log Real.rpow Real.pi) Q b2 omega = 0) ∧
    (∀ (m : Nat) (omega : Fin N → Fin (m + 1) → ℝ),
      temporalTerm (Elementary.mk Real.exp Real.log Real.rpow Real.pi) Q b2 omega
        = SCALE (Elementary.mk Real.exp Real.log Real.rpow Real.pi)
            (GMRF (Elementary.mk Real.exp Real.log Real.rpow Real.pi) Q) (1 / b2)
            (fun n => omega n 0)
          + ∑ t : Fin m, SCALE (Elementary.mk Real.exp Real.log Real.rpow Real.pi)
              (GMRF (Elementary.mk Real.exp Real.log Real.rpow Real.pi) Q) (1 / b2)
              (fun n => omega n t.succ - rhoW * omega n t.castSucc)) := by
  refine ⟨rfl, fun omega => ?_, fun m omega => ?_⟩
  · rw [temporalTerm_eq_sum]; simp
  · rw [temporalTerm_eq_sum, Fin.sum_univ_succ]
    congr 1
    · have h1 : Real.rpow 1 0.5 = 1 := by rw [Real.rpow_eq_pow, Real.one_rpow]
      simp [temporalStep, h1]
    · refine Finset.sum_congr rfl (fun t _ => ?_)
      have hne : ¬ (t.succ.val = 0) := by simp
      have hpred : (⟨t.succ.val - 1, lt_of_le_of_lt (Nat.sub_le _ _) t.succ.isLt⟩ : Fin (m + 1))
          = t.castSucc := by
        apply Fin.ext; simp
      simp only [temporalStep, if_neg hne, hpred, zero_add]

/-- Claim C11: with `rhoW = 1`, for `n_t = m + 1 >= 1` and every `omega` whose
columns are all equal to one vector `w`, every time step `t >= 1` adds to `jnll(1)`
exactly the value of the `t = 0` formula at the zero vector with the same `beta2`,
and `jnll(1) = D(w) + (n_t - 1)*D(0)` with `D = SCALE(GMRF(Q), 1/beta2)`, so the
contribution of the steps `t >= 1` does not depend on `w`. -/
theorem C11_identical_columns (N m : Nat) (Q : Matrix (Fin N) (Fin N) ℝ) (b2 : ℝ)
    (omega : Fin N → Fin (m + 1) → ℝ) (w : Fin N → ℝ) (hω : ∀ n t, omega n t = w n) :
    (∀ (t : Fin (m + 1)) (acc : ℝ), t.val ≠ 0 →
      temporalStep (Elementary.mk Real.exp Real.log Real.rpow Real.pi) Q b2 omega acc t
        = acc + SCALE (Elementary.mk Real.exp Real.log Real.rpow Real.pi)
            (GMRF (Elementary.mk Real.exp Real.log Real.rpow Real.pi) Q)
            (1 / b2 / Real.rpow 1 0.5) (fun _ => 0)) ∧
    temporalTerm (Elementary.mk Real.exp Real.log Real.rpow Real.pi) Q b2 omega
      = SCALE (Elementary.mk Real.exp Real.log Real.rpow Real.pi)
          (GMRF (Elementary.mk Real.exp Real.log Real.rpow Real.pi) Q) (1 / b2) w
        + (m : ℝ) * SCALE (Elementary.mk Real.exp Real.log Real.rpow Real.pi)
            (GMRF (Elementary.mk Real.exp Real.log Real.rpow Real.pi) Q) (1 / b2)
            (fun _ => 0) := by
  have h1 : Real.rpow 1 0.5 = 1 := by rw [Real.rpow_eq_pow, Real.one_rpow]
  have hdiff : ∀ t s : Fin (m + 1), (fun n => omega n t - rhoW * omega n s) = fun _ => (0 : ℝ) := by
    intro t s
    funext n
    simp [rhoW, hω]
  refine ⟨fun t acc ht => ?_, ?_⟩
  · simp only [temporalStep, if_neg ht, hdiff, h1, div_one]
  · rw [temporalTerm_eq_sum, Fin.sum_univ_succ]
    have h0 : (fun n => omega n 0) = w := funext (fun n => hω n 0)
    congr 1
    · simp [temporalStep, h1, h0]
    · have hterm : ∀ t : Fin m,
          temporalStep (Elementary.mk Real.exp Real.log Real.rpow Real.pi) Q b2 omega 0 t.succ
            = SCALE (Elementary.mk Real.exp Real.log Real.rpow Real.pi)
                (GMRF (Elementary.mk Real.exp Real.log Real.rpow Real.pi) Q) (1 / b2)
                (fun _ => 0) := by
        intro t
        have hne : ¬ (t.succ.val = 0) := by simp
        simp only [temporalStep, if_neg hne, hdiff, zero_add]
      simp only [hterm, Finset.sum_const, Finset.card_univ, Fintype.card_fin, nsmul_eq_mul]

/-- Claim C11 at `N = 2`, `n_t = 3`, `Q = I`, `beta2 = 3` and `w = (5, 7)`. -/
theorem C11_witness :
    temporalTerm (Elementary.mk Real.exp Real.log Real.rpow Real.pi)
        (1 : Matrix (Fin 2) (Fin 2) ℝ) 3 (fun (n : Fin 2) (_ : Fin (2 + 1)) => ![5, 7] n)
      = SCALE (Elementary.mk Real.exp Real.log Real.rpow Real.pi)
          (GMRF (Elementary.mk Real.exp Real.log Real.rpow Real.pi)
            (1 : Matrix (Fin 2) (Fin 2) ℝ)) (1 / 3) ![5, 7]
        + ((2 : ℕ) : ℝ) * SCALE (Elementary.mk Real.exp Real.log Real.rpow Real.pi)
            (GMRF (Elementary.mk Real.exp Real.log Real.rpow Real.pi)
              (1 : Matrix (Fin 2) (Fin 2) ℝ)) (1 / 3) (fun _ => 0) :=
  (C11_identical_columns 2 2 1 3 (fun n _ => ![5, 7] n) ![5, 7] (fun _ _ => rfl)).2

/-- Claim C12: for every data matrix, every cell `(n,t)` and every value `v`,
the objective with `y[n,t] = v` is the objective with `y[n,t]` missing plus
`-log Normal(v; z[n,t], sigma_y)`, with `jnll(0)` and `jnll(1)` unchanged (`z` depends
on the parameters only); and two data matrices with the same missing cells that agree
on all non-missing cells give the same objective. -/
theorem C12_missing_data (F : Elementary K) (d : Data K) (p : Parameters K d.N d.n_t)
    (n : Fin d.N) (t : Fin d.n_t) (v : K) :
    objective F (withY d (setCell d.y_nt n t (some v))) p
        = objective F (withY d (setCell d.y_nt n t none)) p
          + -dnorm F v (z_nt p n t) (sigma_y F p) ∧
    jnll0 F (withY d (setCell d.y_nt n t (some v))) p
        = jnll0 F (withY d (setCell d.y_nt n t none)) p ∧
    jnll1 F (withY d (setCell d.y_nt n t (some v))) p
        = jnll1 F (withY d (setCell d.y_nt n t none)) p ∧
    (∀ y1 y2 : Fin d.N → Fin d.n_t → Option K,
      (∀ n2 t2, y1 n2 t2 = none ↔ y2 n2 t2 = none) →
      (∀ n2 t2 a b, y1 n2 t2 = some a → y2 n2 t2 = some b → a = b) →
      objective F (withY d y1) p = objective F (withY d y2) p) := by
  refine ⟨?_, rfl, rfl, fun y1 y2 hnone hsome => ?_⟩
  · have h0 : jnll0 F (withY d (setCell d.y_nt n t (some v))) p
        = jnll0 F (withY d (setCell d.y_nt n t none)) p := rfl
    have h1 : jnll1 F (withY d (setCell d.y_nt n t (some v))) p
        = jnll1 F (withY d (setCell d.y_nt n t none)) p := rfl
    unfold objective
    rw [h0, h1, jnll2_setCell_some]
    ring
  · have hy : y1 = y2 := by
      funext n2 t2
      cases h1 : y1 n2 t2 with
      | none => exact ((hnone n2 t2).mp h1).symm
      | some a =>
        cases h2 : y2 n2 t2 with
        | none => rw [(hnone n2 t2).mpr h2] at h1; exact absurd h1 (by simp)
        | some b => rw [hsome n2 t2 a b h1 h2]
    rw [hy]

/-- Claim C12 at the three-node chain, cell `(1,0)` and the value 2, and at two
fully observed data matrices with equal entries. -/
theorem C12_witness :
    objective (Elementary.mk Real.exp Real.log Real.rpow Real.pi)
        (withY (chain3 ℝ) (setCell (chain3 ℝ).y_nt 1 0 (some 2))) (zeroParameters ℝ 3 1)
      = objective (Elementary.mk Real.exp Real.log Real.rpow Real.pi)
          (withY (chain3 ℝ) (setCell (chain3 ℝ).y_nt 1 0 none)) (zeroParameters ℝ 3 1)
        + -dnorm (Elementary.mk Real.exp Real.log Real.rpow Real.pi) 2
            (z_nt (zeroParameters ℝ 3 1) 1 0)
            (sigma_y (Elementary.mk Real.exp Real.log Real.rpow Real.pi)
              (zeroParameters ℝ 3 1)) ∧
    objective (Elementary.mk Real.exp Real.log Real.rpow Real.pi)
        (withY (chain3 ℝ) (fun _ _ => some 4)) (zeroParameters ℝ 3 1)
      = objective (Elementary.mk Real.exp Real.log Real.rpow Real.pi)
          (withY (chain3 ℝ) (fun _ _ => some (2 + 2))) (zeroParameters ℝ 3 1) :=
  ⟨(C12_missing_data (Elementary.mk Real.exp Real.log Real.rpow Real.pi) (chain3 ℝ)
      (zeroParameters ℝ 3 1) 1 0 2).1,
   (C12_missing_data (Elementary.mk Real.exp Real.log Real.rpow Real.pi) (chain3 ℝ)
      (zeroParameters ℝ 3 1) 1 0 2).2.2.2
      (fun _ _ => some 4) (fun _ _ => some (2 + 2)) (fun _ _ => by simp)
      (fun _ _ a b ha hb => by
        have h1 : (4 : ℝ) = a := Option.some.inj ha
        have h2 : (2 + 2 : ℝ) = b := Option.some.inj hb
        rw [← h1, ← h2]; norm_num)⟩

/-- Claim C13: `z[n,t] = alpha + psi[n] + omega[n,t]`; `jnll(2)` is the sum,
over exactly the cells where `y[n,t]` is not missing, of
`ln(sigma_y) + (1/2)*ln(2*pi) + (y[n,t] - z[n,t])^2 / (2*sigma_y^2)` with
`sigma_y = exp(logsigma_y)`; and the returned objective is
`jnll(0) + jnll(1) + jnll(2)`. -/
theorem C13_observation_term (F : Elementary K) (d : Data K) (p : Parameters K d.N d.n_t) :
    (∀ (n : Fin d.N) (t : Fin d.n_t), z_nt p n t = p.alpha + p.psi_n n + p.omega_nt n t) ∧
    jnll2 F d p
      = ∑ n, ∑ t, (match d.y_nt n t with
          | some y => F.log (F.exp p.logsigma_y) + 1 / 2 * F.log (2 * F.pi)
              + (y - z_nt p n t) ^ 2 / (2 * F.exp p.logsigma_y ^ 2)
          | none => 0) ∧
    objective F d p = jnll0 F d p + jnll1 F d p + jnll2 F d p := by
  refine ⟨fun _ _ => rfl, ?_, rfl⟩
  rw [jnll2_eq_sum]
  refine Finset.sum_congr rfl (fun n _ => Finset.sum_congr rfl (fun t _ => ?_))
  cases d.y_nt n t with
  | none => rfl
  | some y => simp [dnorm, sigma_y]

/-- Claim C14: on the three-node chain `0 -> 1 -> 2` with unit flows, unit
distances, source 0, `logtheta = 0` (so `theta = 1`) and `n_t = 1`, the code computes
`weight = [1,1]`, `rho = [exp(-1), exp(-1)]`, `var = [1-exp(-2), 1-exp(-2)]`,
`v_n = [1, 1-exp(-2), 1-exp(-2)]`, and `Gamma` has exactly two non-zero entries, at
`(1,0)` and `(2,1)`, both equal to `exp(-1)`. -/
theorem C14_chain_scenario (p : Parameters ℝ (chain3 ℝ).N (chain3 ℝ).n_t)
    (h : p.logtheta = 0) :
    theta (Elementary.mk Real.exp Real.log Real.rpow Real.pi) p = 1 ∧
    (∀ e, weight (chain3 ℝ) e = 1) ∧
    (∀ e, rho (Elementary.mk Real.exp Real.log Real.rpow Real.pi)
      (theta (Elementary.mk Real.exp Real.log Real.rpow Real.pi) p) (chain3 ℝ) e
        = Real.exp (-1)) ∧
    (∀ e, var (Elementary.mk Real.exp Real.log Real.rpow Real.pi)
      (theta (Elementary.mk Real.exp Real.log Real.rpow Real.pi) p) (chain3 ℝ) e
        = 1 - Real.exp (-2)) ∧
    v_n (Elementary.mk Real.exp Real.log Real.rpow Real.pi)
      (theta (Elementary.mk Real.exp Real.log Real.rpow Real.pi) p) (chain3 ℝ)
        = ![1, 1 - Real.exp (-2), 1 - Real.exp (-2)] ∧
    Gamma (Elementary.mk Real.exp Real.log Real.rpow Real.pi)
      (theta (Elementary.mk Real.exp Real.log Real.rpow Real.pi) p) (chain3 ℝ) 1 0
        = Real.exp (-1) ∧
    Gamma (Elementary.mk Real.exp Real.log Real.rpow Real.pi)
      (theta (Elementary.mk Real.exp Real.log Real.rpow Real.pi) p) (chain3 ℝ) 2 1
        = Real.exp (-1) ∧
    (∀ i j : Fin 3,
      Gamma (Elementary.mk Real.exp Real.log Real.rpow Real.pi)
        (theta (Elementary.mk Real.exp Real.log Real.rpow Real.pi) p) (chain3 ℝ) i j ≠ 0
        ↔ (i = 1 ∧ j = 0) ∨ (i = 2 ∧ j = 1)) := by
  have hth : theta (Elementary.mk Real.exp Real.log Real.rpow Real.pi) p = 1 := by
    simp [theta, h]
  have hv := chain3_v_n (Elementary.mk Real.exp Real.log Real.rpow Real.pi) (1 : ℝ)
  have hG := chain3_Gamma (Elementary.mk Real.exp Real.log Real.rpow Real.pi) (1 : ℝ)
  simp only [mul_one] at hv hG
  rw [hth]
  refine ⟨rfl, ?_, ?_, ?_, ?_, hG.1, hG.2.1, fun i j => ⟨fun hne => ?_, fun hij => ?_⟩⟩
  · intro e; fin_cases e <;> simp [chain3, weight]
  · intro e; fin_cases e <;> simp [chain3, rho]
  · intro e; fin_cases e <;> simp [chain3, var]
  · funext n
    fin_cases n
    · exact hv.1
    · exact hv.2.1
    · exact hv.2.2
  · by_contra hcon
    exact hne (hG.2.2 i j hcon)
  · have hpos := Real.exp_pos (-1)
    rcases hij with ⟨rfl, rfl⟩ | ⟨rfl, rfl⟩
    · rw [hG.1]; exact hpos.ne.symm
    · rw [hG.2.1]; exact hpos.ne.symm

/-- Claim C14 at the all-zero parameter record, whose `logtheta` is 0. -/
theorem C14_witness :
    v_n (Elementary.mk Real.exp Real.log Real.rpow Real.pi)
        (theta (Elementary.mk Real.exp Real.log Real.rpow Real.pi) (zeroParameters ℝ 3 1))
        (chain3 ℝ)
      = ![1, 1 - Real.exp (-2), 1 - Real.exp (-2)] :=
  (C14_chain_scenario (zeroParameters ℝ 3 1) rfl).2.2.2.2.1

/-- Claim C15: for every network with all `v_n` non-zero, if `Q(i,j)` is
non-zero then `i = j`, or there is an edge from `i` to `j`, or an edge from `j` to
`i`, or a node `k` with an edge from `i` to `k` and an edge from `j` to `k`. -/
theorem C15_Q_sparsity (F : Elementary K) (th : K) (d : Data K)
    (_hv : ∀ n, v_n F th d n ≠ 0) (i j : Fin d.N) (hQ : Q F th d i j ≠ 0) :
    i = j ∨ (∃ e : Fin d.E, d.from_e e = i ∧ d.to_e e = j)
      ∨ (∃ e : Fin d.E, d.from_e e = j ∧ d.to_e e = i)
      ∨ ∃ k : Fin d.N, (∃ e : Fin d.E, d.from_e e = i ∧ d.to_e e = k)
          ∧ (∃ e : Fin d.E, d.from_e e = j ∧ d.to_e e = k) := by
  rw [Q_apply] at hQ
  obtain ⟨k, _, hk⟩ := Finset.exists_ne_zero_of_sum_ne_zero hQ
  have hki := I_sub_Gamma_ne_zero F th d k i (left_ne_zero_of_mul (left_ne_zero_of_mul hk))
  have hkj := I_sub_Gamma_ne_zero F th d k j (right_ne_zero_of_mul hk)
  rcases hki with hki | hki
  · rcases hkj with hkj | hkj
    · exact Or.inl (hki.symm.trans hkj)
    · subst hki
      exact Or.inr (Or.inr (Or.inl hkj))
  · rcases hkj with hkj | hkj
    · subst hkj
      exact Or.inr (Or.inl hki)
    · exact Or.inr (Or.inr (Or.inr ⟨k, hki, hkj⟩))

/-- Claim C15 at the two-node chain with `theta = 1` and the entry `Q(0,1)`,
which is not zero. -/
theorem C15_witness :
    (0 : Fin 2) = 1 ∨ (∃ e : Fin (chain2 ℝ).E, (chain2 ℝ).from_e e = 0 ∧ (chain2 ℝ).to_e e = 1)
      ∨ (∃ e : Fin (chain2 ℝ).E, (chain2 ℝ).from_e e = 1 ∧ (chain2 ℝ).to_e e = 0)
      ∨ ∃ k : Fin (chain2 ℝ).N,
          (∃ e : Fin (chain2 ℝ).E, (chain2 ℝ).from_e e = 0 ∧ (chain2 ℝ).to_e e = k)
          ∧ (∃ e : Fin (chain2 ℝ).E, (chain2 ℝ).from_e e = 1 ∧ (chain2 ℝ).to_e e = k) :=
  C15_Q_sparsity (Elementary.mk Real.exp Real.log Real.rpow Real.pi) 1 (chain2 ℝ)
    (fun n => (chain2_v_n_pos n).ne.symm) 0 1 chain2_Q_offdiag

/-- Claim C16: over the reals, for every network with all `v_n` non-zero and
every vector `x`, `x^T Q x` equals the sum over the nodes `n` of
`(x[n] - sum_j Gamma[n,j]*x[j])^2 / v_n[n]`. -/
theorem C16_sum_of_conditionals (th : ℝ) (d : Data ℝ)
    (_hv : ∀ n, v_n (Elementary.mk Real.exp Real.log Real.rpow Real.pi) th d n ≠ 0)
    (x : Fin d.N → ℝ) :
    Matrix.dotProduct x
        ((Q (Elementary.mk Real.exp Real.log Real.rpow Real.pi) th d).mulVec x)
      = sumOfConditionals (Gamma (Elementary.mk Real.exp Real.log Real.rpow Real.pi) th d)
          (v_n (Elementary.mk Real.exp Real.log Real.rpow Real.pi) th d) x :=
  Q_quadform_real th d x

/-- Claim C16 at the two-node chain with `theta = 1` and the all-ones vector. -/
theorem C16_witness :
    Matrix.dotProduct (fun _ => (1 : ℝ))
        ((Q (Elementary.mk Real.exp Real.log Real.rpow Real.pi) 1 (chain2 ℝ)).mulVec
          (fun _ => 1))
      = sumOfConditionals (Gamma (Elementary.mk Real.exp Real.log Real.rpow Real.pi) 1 (chain2 ℝ))
          (v_n (Elementary.mk Real.exp Real.log Real.rpow Real.pi) 1 (chain2 ℝ))
          (fun _ => 1) :=
  C16_sum_of_conditionals 1 (chain2 ℝ) (fun n => (chain2_v_n_pos n).ne.symm) (fun _ => 1)

/-- Claim C17: over the reals, for every network whose edges form a directed
acyclic graph and whose `v_n(n) > 0` for every node `n`, the precision matrix is
strictly positive definite: `x^T Q x > 0` for every non-zero vector `x`. -/
theorem C17_Q_posDef (th : ℝ) (d : Data ℝ) (hd : Acyclic d)
    (hv : ∀ n, 0 < v_n (Elementary.mk Real.exp Real.log Real.rpow Real.pi) th d n)
    (x : Fin d.N → ℝ) (hx : x ≠ 0) :
    0 < Matrix.dotProduct x
      ((Q (Elementary.mk Real.exp Real.log Real.rpow Real.pi) th d).mulVec x) :=
  Q_quadform_pos th d hd hv x hx

/-- Claim C17 at the two-node chain with `theta = 1` and the all-ones vector. -/
theorem C17_witness :
    0 < Matrix.dotProduct (fun _ => (1 : ℝ))
      ((Q (Elementary.mk Real.exp Real.log Real.rpow Real.pi) 1 (chain2 ℝ)).mulVec
        (fun _ => (1 : ℝ))) :=
  C17_Q_posDef 1 (chain2 ℝ) chain2_acyclic chain2_v_n_pos (fun _ => 1)
    (fun h => one_ne_zero (congrFun h (0 : Fin 2)))

/-- Claim C18: over the reals, for every network whose edges form a directed
acyclic graph and whose `v_n(n)` are all non-zero, `det(I - Gamma) = 1`,
`det Q` is the product over the nodes `n` of `1/v_n(n)`, and the log-determinant
`ln det Q` is `-sum_n ln v_n(n)`. -/
theorem C18_det_Q (th : ℝ) (d : Data ℝ) (hd : Acyclic d)
    (hv : ∀ n, v_n (Elementary.mk Real.exp Real.log Real.rpow Real.pi) th d n ≠ 0) :
    (I d.N - Gamma (Elementary.mk Real.exp Real.log Real.rpow Real.pi) th d :
        Matrix (Fin d.N) (Fin d.N) ℝ).det = 1 ∧
    (Q (Elementary.mk Real.exp Real.log Real.rpow Real.pi) th d).det
      = ∏ n, 1 / v_n (Elementary.mk Real.exp Real.log Real.rpow Real.pi) th d n ∧
    Real.log (Q (Elementary.mk Real.exp Real.log Real.rpow Real.pi) th d).det
      = -∑ n, Real.log (v_n (Elementary.mk Real.exp Real.log Real.rpow Real.pi) th d n) := by
  have hdet : (Q (Elementary.mk Real.exp Real.log Real.rpow Real.pi) th d).det
      = ∏ n, 1 / v_n (Elementary.mk Real.exp Real.log Real.rpow Real.pi) th d n := by
    rw [det_Q _ th d hd]
    refine Finset.prod_congr rfl (fun n _ => ?_)
    show Real.rpow _ (-1) = _
    rw [real_pow_neg_one, one_div]
  refine ⟨det_I_sub_Gamma _ th d hd, hdet, ?_⟩
  rw [hdet, Real.log_prod _ _ (fun n _ => one_div_ne_zero (hv n)), ← Finset.sum_neg_distrib]
  refine Finset.sum_congr rfl (fun n _ => ?_)
  rw [one_div, Real.log_inv]

/-- Claim C18 at the two-node chain with `theta = 1`. -/
theorem C18_witness :
    (Q (Elementary.mk Real.exp Real.log Real.rpow Real.pi) 1 (chain2 ℝ)).det
      = ∏ n, 1 / v_n (Elementary.mk Real.exp Real.log Real.rpow Real.pi) 1 (chain2 ℝ) n :=
  (C18_det_Q 1 (chain2 ℝ) chain2_acyclic (fun n => (chain2_v_n_pos n).ne.symm)).2.1

/-- Claim C19: over the reals, `theta = exp(logtheta) > 0`; for every edge `e`
with `dist_e(e) >= 0`, `var(e) = 1 - rho(e)^2`, `0 < rho(e) <= 1`, `0 <= var(e) < 1`,
and `var(e) = 0` exactly when `dist_e(e) = 0`; with positive flows and non-negative
distances every `v_n(n)`, as accumulated by the edge loop and as reported, is `>= 0`,
and is `> 0` as soon as some edge into `n` has positive distance. -/
theorem C19_edge_quantities (d : Data ℝ) (p : Parameters ℝ d.N d.n_t) :
    0 < theta (Elementary.mk Real.exp Real.log Real.rpow Real.pi) p ∧
    (∀ e : Fin d.E, 0 ≤ d.dist_e e →
      var (Elementary.mk Real.exp Real.log Real.rpow Real.pi)
          (theta (Elementary.mk Real.exp Real.log Real.rpow Real.pi) p) d e
        = 1 - rho (Elementary.mk Real.exp Real.log Real.rpow Real.pi)
            (theta (Elementary.mk Real.exp Real.log Real.rpow Real.pi) p) d e ^ 2 ∧
      0 < rho (Elementary.mk Real.exp Real.log Real.rpow Real.pi)
          (theta (Elementary.mk Real.exp Real.log Real.rpow Real.pi) p) d e ∧
      rho (Elementary.mk Real.exp Real.log Real.rpow Real.pi)
          (theta (Elementary.mk Real.exp Real.log Real.rpow Real.pi) p) d e ≤ 1 ∧
      0 ≤ var (Elementary.mk Real.exp Real.log Real.rpow Real.pi)
          (theta (Elementary.mk Real.exp Real.log Real.rpow Real.pi) p) d e ∧
      var (Elementary.mk Real.exp Real.log Real.rpow Real.pi)
          (theta (Elementary.mk Real.exp Real.log Real.rpow Real.pi) p) d e < 1 ∧
      (var (Elementary.mk Real.exp Real.log Real.rpow Real.pi)
          (theta (Elementary.mk Real.exp Real.log Real.rpow Real.pi) p) d e = 0
        ↔ d.dist_e e = 0)) ∧
    ((∀ n, 0 < d.flow_n n) → (∀ e, 0 ≤ d.dist_e e) → ∀ n : Fin d.N,
      0 ≤ (edgeLoop (Elementary.mk Real.exp Real.log Real.rpow Real.pi)
          (theta (Elementary.mk Real.exp Real.log Real.rpow Real.pi) p) d).v_n n ∧
      0 ≤ v_n (Elementary.mk Real.exp Real.log Real.rpow Real.pi)
          (theta (Elementary.mk Real.exp Real.log Real.rpow Real.pi) p) d n ∧
      ((∃ e, d.to_e e = n ∧ 0 < d.dist_e e) →
        0 < (edgeLoop (Elementary.mk Real.exp Real.log Real.rpow Real.pi)
            (theta (Elementary.mk Real.exp Real.log Real.rpow Real.pi) p) d).v_n n ∧
        0 < v_n (Elementary.mk Real.exp Real.log Real.rpow Real.pi)
            (theta (Elementary.mk Real.exp Real.log Real.rpow Real.pi) p) d n)) := by
  have hth : 0 < theta (Elementary.mk Real.exp Real.log Real.rpow Real.pi) p :=
    Real.exp_pos _
  refine ⟨hth, fun e he => real_edge_quantities _ hth d e he, fun hflow hdist n => ?_⟩
  have hacc := real_accumulated_nonneg _ hth d hflow hdist n
  by_cases hs : ∃ s : Fin d.S, d.source_s s = n
  · obtain ⟨s, rfl⟩ := hs
    rw [v_n_source]
    exact ⟨hacc.1, zero_le_one, fun hex => ⟨hacc.2 hex, zero_lt_one⟩⟩
  · have hns : ∀ s : Fin d.S, d.source_s s ≠ n := fun s h => hs ⟨s, h⟩
    rw [v_n_not_source _ _ d n hns]
    exact ⟨hacc.1, hacc.1, fun hex => ⟨hacc.2 hex, hacc.2 hex⟩⟩

/-- Claim C19 at the three-node chain: node 2 has an incoming edge of length 1. -/
theorem C19_witness :
    0 < v_n (Elementary.mk Real.exp Real.log Real.rpow Real.pi)
        (theta (Elementary.mk Real.exp Real.log Real.rpow Real.pi) (zeroParameters ℝ 3 1))
        (chain3 ℝ) 2 :=
  (((C19_edge_quantities (chain3 ℝ) (zeroParameters ℝ 3 1)).2.2
    (by intro n; fin_cases n <;> simp [chain3])
    (by intro e; fin_cases e <;> simp [chain3]) 2).2.2
    ⟨1, rfl, by simp [chain3]⟩).2

end Claims

end NetworkSpacetime
